import Mathlib

/-!
# TOTP authenticator (`cryptography/totp-2fa-authenticator/main.go`)

A shallow embedding of the program's two functions `GenerateCode` and
`generateTOTP` and of the polling loop of `main`, followed by the properties
proved about them.

Conventions of the embedding.

* A byte is a `Nat` below 256, a byte string a `List Nat`.  Fixed-width machine
  arithmetic is written with explicit reductions modulo `2^32` and `2^64`.
* A Go `string` holding UTF-8 text is a Lean `String`; `utf8Bytes` gives its
  bytes.
* The wall clock is an input: every call of `time.Now()` in the source becomes
  an argument (Unix seconds, an `int64`).
* A run-time panic (an index or a slice out of range) is the value `none`.
* The Go standard library functions the program calls (`crypto/sha1`,
  `crypto/hmac`, `encoding/base32`, `encoding/binary`, `strings`, `fmt`) are
  modelled after their published behaviour (FIPS 180-4, RFC 2104, RFC 4648).
-/

namespace Totp

/-! ## `encoding/binary`: big-endian integers -/

/-- Conversion `uint64(x)` of an `int64`: the value modulo `2^64`. -/
def uint64 (x : Int) : Nat := (x % 18446744073709551616).toNat

/-- Wrap-around of `int64` arithmetic: the representative of `x` modulo `2^64`
in the range `-2^63 .. 2^63 - 1`. -/
def wrapInt64 (x : Int) : Int :=
  (x + 9223372036854775808) % 18446744073709551616 - 9223372036854775808

/-- The eight bytes written by `binary.BigEndian.PutUint64`. -/
def putUint64 (v : Nat) : List Nat :=
  [(v >>> 56) % 256, (v >>> 48) % 256, (v >>> 40) % 256, (v >>> 32) % 256,
   (v >>> 24) % 256, (v >>> 16) % 256, (v >>> 8) % 256, v % 256]

/-- The four bytes written by `binary.BigEndian.PutUint32`. -/
def putUint32 (v : Nat) : List Nat :=
  [(v >>> 24) % 256, (v >>> 16) % 256, (v >>> 8) % 256, v % 256]

/-- Value read by `binary.BigEndian.Uint32` from four bytes:
`b3 | b2<<8 | b1<<16 | b0<<24`. -/
def beUint32 (b0 b1 b2 b3 : Nat) : Nat :=
  (b3 ||| (b2 <<< 8) ||| (b1 <<< 16) ||| (b0 <<< 24)) % 4294967296

/-! ## `crypto/sha1` -/

/-- Rotation `bits.RotateLeft32 x k` of a 32-bit word. -/
def rotateLeft32 (x k : Nat) : Nat :=
  ((x <<< k) ||| (x >>> (32 - k))) % 4294967296

/-- Initial chaining value of SHA-1. -/
def sha1Init : List Nat :=
  [0x67452301, 0xEFCDAB89, 0x98BADCFE, 0x10325476, 0xC3D2E1F0]

/-- The big-endian 32-bit words of a block of bytes. -/
def blockWords : List Nat → List Nat
  | b0 :: b1 :: b2 :: b3 :: rest => beUint32 b0 b1 b2 b3 :: blockWords rest
  | _ => []

/-- Message schedule, most recent word first: `n` more words, each
`rotl1 (w[t-3] ^ w[t-8] ^ w[t-14] ^ w[t-16])`. -/
def extendSchedule : Nat → List Nat → List Nat
  | 0, w => w
  | n + 1, w =>
    extendSchedule n
      (rotateLeft32 (w.getD 2 0 ^^^ w.getD 7 0 ^^^ w.getD 13 0 ^^^ w.getD 15 0) 1 :: w)

/-- The 80 schedule words `w[0] .. w[79]` of one 64-byte block. -/
def schedule (block : List Nat) : List Nat :=
  (extendSchedule 64 (blockWords block).reverse).reverse

/-- Round function of round `i`. -/
def roundF (i b c d : Nat) : Nat :=
  if i < 20 then (b &&& c) ||| ((b ^^^ 0xFFFFFFFF) &&& d)
  else if i < 40 then b ^^^ c ^^^ d
  else if i < 60 then ((b ||| c) &&& d) ||| (b &&& c)
  else b ^^^ c ^^^ d

/-- Round constant of round `i`. -/
def roundK (i : Nat) : Nat :=
  if i < 20 then 0x5A827999
  else if i < 40 then 0x6ED9EBA1
  else if i < 60 then 0x8F1BBCDC
  else 0xCA62C1D6

/-- The five working registers of the compression function. -/
structure Regs where
  a : Nat
  b : Nat
  c : Nat
  d : Nat
  e : Nat

/-- The rounds of the compression function over the schedule words, starting
at round `i`. -/
def rounds : Nat → List Nat → Regs → Regs
  | _, [], r => r
  | i, w :: ws, r =>
    rounds (i + 1) ws
      ⟨(rotateLeft32 r.a 5 + roundF i r.b r.c r.d + r.e + w + roundK i) % 4294967296,
        r.a, rotateLeft32 r.b 30, r.c, r.d⟩

/-- One application of the compression function to a 64-byte block. -/
def blockStep (h : List Nat) (block : List Nat) : List Nat :=
  let r := rounds 0 (schedule block)
    ⟨h.getD 0 0, h.getD 1 0, h.getD 2 0, h.getD 3 0, h.getD 4 0⟩
  [(h.getD 0 0 + r.a) % 4294967296, (h.getD 1 0 + r.b) % 4294967296,
   (h.getD 2 0 + r.c) % 4294967296, (h.getD 3 0 + r.d) % 4294967296,
   (h.getD 4 0 + r.e) % 4294967296]

/-- Compression of the first `n` 64-byte blocks of `p`. -/
def blocks : Nat → List Nat → List Nat → List Nat
  | 0, h, _ => h
  | n + 1, h, p => blocks n (blockStep h (p.take 64)) (p.drop 64)

/-- Padding appended to a message of `len` bytes: `0x80`, zero bytes up to 56
modulo 64, and the length in bits as a 64-bit big-endian integer. -/
def sha1Pad (len : Nat) : List Nat :=
  (if len % 64 < 56 then 0x80 :: List.replicate (55 - len % 64) 0
   else 0x80 :: List.replicate (119 - len % 64) 0) ++
    putUint64 ((len * 8) % 18446744073709551616)

/-- The 20-byte SHA-1 digest of a message (`sha1.New`, `Write`, `Sum(nil)`). -/
def sha1Sum (msg : List Nat) : List Nat :=
  let p := msg ++ sha1Pad msg.length
  (blocks (p.length / 64) sha1Init p).flatMap putUint32

/-! ## `crypto/hmac` -/

/-- The digest `hmac.New(sha1.New, key)`, `Write(msg)`, `Sum(nil)`: a key longer
than the 64-byte block is hashed first, the key is padded with zero bytes to
64 bytes, and the result is `H(key ^ opad ‖ H(key ^ ipad ‖ msg))`. -/
def hmacSha1 (key msg : List Nat) : List Nat :=
  let k := if key.length > 64 then sha1Sum key else key
  let k := k ++ List.replicate (64 - k.length) 0
  sha1Sum (k.map (· ^^^ 0x5c) ++ sha1Sum (k.map (· ^^^ 0x36) ++ msg))

/-! ## `fmt`: the verb `%06d` -/

/-- The character of a decimal digit. -/
def digitChar (d : Nat) : Char := Char.ofNat (48 + d)

/-- Decimal digits of `u`, most significant first, in front of `acc`: the
digit loop of the integer formatter (`for u >= 10 { ... u /= 10 }`). -/
def formatDigits : Nat → Nat → List Char → List Char
  | 0, u, acc => digitChar (u % 10) :: acc
  | fuel + 1, u, acc =>
    if u ≥ 10 then formatDigits fuel (u / 10) (digitChar (u % 10) :: acc)
    else digitChar u :: acc

/-- The string `fmt.Sprintf("%06d", u)` for an unsigned 32-bit value: its decimal
digits, padded on the left with `0` to a width of six. -/
def sprintf06d (u : Nat) : String :=
  let ds := formatDigits 10 u []
  String.mk (List.replicate (6 - ds.length) '0' ++ ds)

/-- Reading of a string of decimal digits as a number. -/
def decimalValue (s : String) : Nat :=
  s.data.foldl (fun acc c => 10 * acc + (c.toNat - 48)) 0

/-! ## `generateTOTP` -/

/-- Lines 39-46 of `generateTOTP`: dynamic truncation of the digest, reduction
modulo `1000000` and formatting.  The result is `none` when `hash[len(hash)-1]`
or the slice `hash[offset:offset+4]` is out of range. -/
def truncateCode (hash : List Nat) : Option String :=
  if hash.length = 0 then none
  else
    match hash.get? (hash.length - 1) with
    | none => none
    | some last =>
      let offset := last &&& 0xf
      if offset + 4 ≤ hash.length then
        match hash.drop offset with
        | b0 :: b1 :: b2 :: b3 :: _ =>
          let truncatedHash := beUint32 b0 b1 b2 b3 &&& 0x7fffffff
          let code := truncatedHash % 1000000
          some (sprintf06d code)
        | _ => none
      else none

/-- The function `generateTOTP(secret, interval)`: the interval as eight
big-endian bytes, HMAC-SHA1 under the secret, then `truncateCode`. -/
def generateTOTP (secret : List Nat) (interval : Int) : Option String :=
  let intervalBytes := putUint64 (uint64 interval)
  let hash := hmacSha1 secret intervalBytes
  truncateCode hash

/-! ## `strings`: normalisation of the secret -/

/-- The string `strings.ReplaceAll(s, " ", "")`: every space character removed. -/
def removeSpaces (s : String) : String :=
  String.mk (s.data.filter (fun c => c != ' '))

/-- The rune `unicode.ToUpper(c)`.  An ASCII rune is handled by arithmetic on
the letters `a .. z`; for the other runes the Unicode case table, which is not
part of the program, is the parameter `upperTable`. -/
def toUpperRune (upperTable : Char → Char) (c : Char) : Char :=
  if c.toNat < 128 then
    if 97 ≤ c.toNat ∧ c.toNat ≤ 122 then Char.ofNat (c.toNat - 32) else c
  else upperTable c

/-- The string `strings.ToUpper(s)`. -/
def toUpper (upperTable : Char → Char) (s : String) : String :=
  String.mk (s.data.map (toUpperRune upperTable))

/-- UTF-8 encoding of one rune. -/
def utf8EncodeRune (c : Char) : List Nat :=
  let n := c.toNat
  if n < 0x80 then [n]
  else if n < 0x800 then [0xC0 ||| (n >>> 6), 0x80 ||| (n &&& 0x3F)]
  else if n < 0x10000 then
    [0xE0 ||| (n >>> 12), 0x80 ||| ((n >>> 6) &&& 0x3F), 0x80 ||| (n &&& 0x3F)]
  else
    [0xF0 ||| (n >>> 18), 0x80 ||| ((n >>> 12) &&& 0x3F), 0x80 ||| ((n >>> 6) &&& 0x3F),
      0x80 ||| (n &&& 0x3F)]

/-- The bytes `[]byte(s)` of a string. -/
def utf8Bytes (s : String) : List Nat :=
  s.data.flatMap utf8EncodeRune

/-! ## `encoding/base32`: `StdEncoding.DecodeString` -/

/-- The error `base32.CorruptInputError`, the offset of the offending byte. -/
structure CorruptInputError where
  offset : Int
  deriving DecidableEq, Repr

/-- The pair `([]byte, error)` returned by `DecodeString`, restricted to what
`GenerateCode` uses: the bytes when the error is nil, the error otherwise. -/
inductive DecodeResult where
  | ok (bytes : List Nat)
  | corrupt (err : CorruptInputError)
  deriving DecidableEq, Repr

/-- Decoding table of the standard alphabet `A .. Z`, `2 .. 7`; `0xFF` marks a
byte outside the alphabet. -/
def decodeMap (b : Nat) : Nat :=
  if 65 ≤ b ∧ b ≤ 90 then b - 65
  else if 50 ≤ b ∧ b ≤ 55 then b - 24
  else 0xFF

/-- The bytes left by `stripNewlines`: carriage returns and line feeds removed. -/
def stripNewlines (src : List Nat) : List Nat :=
  src.filter (fun c => c != 13 && c != 10)

/-- The padding check `for k := 0; k < 8-1-j; k++`: the first `k`, counted from
`k`, among the next `n` positions at which a byte is present and is not `=`. -/
def findBadPad : Nat → Nat → List Nat → Option Nat
  | _, 0, _ => none
  | _, _ + 1, [] => none
  | k, n + 1, c :: cs => if c ≠ 61 then some k else findBadPad (k + 1) n cs

/-- Outcome of reading one quantum of eight characters. -/
inductive QuantumResult where
  | corrupt (offset : Int)
  | done (dbuf : List Nat) (dlen : Nat) (atEnd : Bool) (src : List Nat)
  deriving DecidableEq, Repr

/-- The inner loop `for j := 0; j < 8;` of the decoder.  `olen` is the length of
the whole input, the first argument is `8 - j`, `src` the unread input and
`dbuf` the `j` values read so far. -/
def decodeQuantum (olen : Nat) : Nat → List Nat → List Nat → QuantumResult
  | 0, src, dbuf => .done dbuf 8 false src
  | _ + 1, [], dbuf => .corrupt ((olen : Int) - 0 - dbuf.length)
  | n + 1, c :: src, dbuf =>
    let j := dbuf.length
    if c = 61 ∧ j ≥ 2 ∧ src.length < 8 then
      if src.length + j < 8 - 1 then .corrupt olen
      else
        match findBadPad 0 (8 - 1 - j) src with
        | some k => .corrupt ((olen : Int) - src.length + k - 1)
        | none =>
          if j = 1 ∨ j = 3 ∨ j = 6 then .corrupt ((olen : Int) - src.length - 1)
          else .done dbuf j true src
    else if decodeMap c = 0xFF then .corrupt ((olen : Int) - src.length - 1)
    else decodeQuantum olen n src (dbuf ++ [decodeMap c])

/-- The bytes produced from one quantum: `switch dlen` with its fall-through
cases, `dbuf` read as zero beyond the values present. -/
def packQuantum (dbuf : List Nat) (dlen : Nat) : List Nat :=
  let d := fun i => dbuf.getD i 0
  let dst :=
    [((d 0 <<< 3) ||| (d 1 >>> 2)) % 256,
     ((d 1 <<< 6) ||| (d 2 <<< 1) ||| (d 3 >>> 4)) % 256,
     ((d 3 <<< 4) ||| (d 4 >>> 1)) % 256,
     ((d 4 <<< 7) ||| (d 5 <<< 2) ||| (d 6 >>> 3)) % 256,
     ((d 6 <<< 5) ||| d 7) % 256]
  dst.take
    (if dlen = 8 then 5 else if dlen = 7 then 4 else if dlen = 5 then 3
     else if dlen = 4 then 2 else if dlen = 2 then 1 else 0)

/-- The outer loop `for len(src) > 0 && !end` of the decoder; the first
argument bounds the number of iterations. -/
def decodeLoop (olen : Nat) : Nat → List Nat → DecodeResult
  | 0, _ => .ok []
  | fuel + 1, src =>
    if src.length = 0 then .ok []
    else
      match decodeQuantum olen 8 src [] with
      | .corrupt off => .corrupt ⟨off⟩
      | .done dbuf dlen atEnd rest =>
        if atEnd then .ok (packQuantum dbuf dlen)
        else
          match decodeLoop olen fuel rest with
          | .ok bytes => .ok (packQuantum dbuf dlen ++ bytes)
          | .corrupt err => .corrupt err

/-- The call `base32.StdEncoding.DecodeString(s)`: newlines are stripped and the
rest is decoded quantum by quantum.  Every iteration of the outer loop reads
at least one byte, so `src.length` iterations suffice. -/
def DecodeString (s : String) : DecodeResult :=
  let src := stripNewlines (utf8Bytes s)
  decodeLoop src.length src.length src

/-! ## `GenerateCode` -/

/-- The error `fmt.Errorf("invalid secret format: %v", err)`. -/
inductive GoError where
  | invalidSecretFormat (cause : CorruptInputError)
  deriving DecidableEq, Repr

/-- The quotient `now / 30` of `int64` values, which truncates toward zero
(lines 18 and 70). -/
def timeStep (now : Int) : Int := Int.tdiv now 30

/-- The function `GenerateCode(secret)`, with the reading `now` of
`time.Now().Unix()` as an argument.  The result is the returned pair
`(string, error)`, or `none` when `generateTOTP` panics. -/
def GenerateCode (upperTable : Char → Char) (now : Int) (secret : String) :
    Option (String × Option GoError) :=
  let interval := timeStep now
  let secret := toUpper upperTable (removeSpaces secret)
  match DecodeString secret with
  | .corrupt err => some ("", some (.invalidSecretFormat err))
  | .ok secretBytes =>
    match generateTOTP secretBytes interval with
    | none => none
    | some code => some (code, none)

/-! ## The polling loop of `main` -/

/-- The clock readings of one iteration of the loop: `now` is read by `main`
(line 69), `genNow` inside `GenerateCode` (line 18) when it is called. -/
structure Clock where
  now : Int
  genNow : Int
  deriving DecidableEq, Repr

/-- What one iteration does that can be observed. -/
inductive Event where
  /-- `GenerateCode` is called (line 74) in the interval `currentInterval`. -/
  | invoked (currentInterval : Int)
  /-- The line printed at line 84, its time stamp given as the reading `now`. -/
  | report (now : Int) (code : String) (validFor : Int)
  /-- The error printed at line 76, followed by `os.Exit(1)`. -/
  | fatal (err : GoError)
  deriving DecidableEq, Repr

/-- How an iteration ends. -/
inductive Control where
  | running
  | exited
  | panicked
  deriving DecidableEq, Repr

/-- One iteration of the loop (lines 69-87) from the state `lastInterval`: the
new value of `lastInterval`, how the iteration ends and its events. -/
def iteration (upperTable : Char → Char) (secret : String) (lastInterval : Int)
    (clk : Clock) : Int × Control × List Event :=
  let currentInterval := timeStep clk.now
  if currentInterval > lastInterval then
    match GenerateCode upperTable clk.genNow secret with
    | none => (lastInterval, .panicked, [.invoked currentInterval])
    | some (_, some err) =>
      (lastInterval, .exited, [.invoked currentInterval, .fatal err])
    | some (code, none) =>
      let nextIntervalStart := wrapInt64 ((currentInterval + 1) * 30)
      let validFor := wrapInt64 (nextIntervalStart - clk.now)
      (currentInterval, .running,
        [.invoked currentInterval, .report clk.now code validFor])
  else (lastInterval, .running, [])

/-- The loop over the clock readings of successive iterations, stopping at
the first iteration that does not keep running. -/
def runLoop (upperTable : Char → Char) (secret : String) :
    Int → List Clock → Int × Control × List Event
  | lastInterval, [] => (lastInterval, .running, [])
  | lastInterval, clk :: rest =>
    match iteration upperTable secret lastInterval clk with
    | (last, .running, evs) =>
      let r := runLoop upperTable secret last rest
      (r.1, r.2.1, evs ++ r.2.2)
    | r => r

/-- The loop of `main`, entered with `lastInterval = -1` (line 66). -/
def mainLoop (upperTable : Char → Char) (secret : String) (clocks : List Clock) :
    Int × Control × List Event :=
  runLoop upperTable secret (-1) clocks

/-- The intervals of the calls of `GenerateCode` in a trace. -/
def invokedIntervals : List Event → List Int
  | [] => []
  | .invoked i :: evs => i :: invokedIntervals evs
  | _ :: evs => invokedIntervals evs

/-- The clock readings of the reports of a trace. -/
def reportTimes : List Event → List Int
  | [] => []
  | .report now _ _ :: evs => now :: reportTimes evs
  | _ :: evs => reportTimes evs

/-! ## Definitions used to state the properties -/

/-- Dynamic truncation in the words of the specification: `offset` is the low
nibble of byte 19, the four bytes from `offset` are read as a big-endian
number and the top bit is masked off. -/
def specTruncated (d : List Nat) : Nat :=
  let offset := d.getD 19 0 &&& 0x0F
  (d.getD offset 0 * 2 ^ 24 + d.getD (offset + 1) 0 * 2 ^ 16 + d.getD (offset + 2) 0 * 2 ^ 8
    + d.getD (offset + 3) 0) &&& 0x7FFFFFFF

/-- The rune `d` is the ASCII letter `c` in the other case. -/
def CaseChanged (c d : Char) : Prop :=
  (97 ≤ c.toNat ∧ c.toNat ≤ 122 ∧ d.toNat = c.toNat - 32) ∨
    (65 ≤ c.toNat ∧ c.toNat ≤ 90 ∧ d.toNat = c.toNat + 32)

/-- The text `t` is a variant of the text `s`: it is obtained by changing the
case of ASCII letters and by inserting or removing space characters. -/
inductive SecretVariant : List Char → List Char → Prop where
  | nil : SecretVariant [] []
  | keep (c : Char) {s t : List Char} : SecretVariant s t → SecretVariant (c :: s) (c :: t)
  | changeCase (c d : Char) {s t : List Char} :
      CaseChanged c d → SecretVariant s t → SecretVariant (c :: s) (d :: t)
  | insertSpace {s t : List Char} : SecretVariant s t → SecretVariant s (' ' :: t)
  | removeSpace {s t : List Char} : SecretVariant s t → SecretVariant (' ' :: s) t

/-- The text `t` is obtained from the text `s` by inserting characters that
satisfy `p`. -/
inductive Inserted (p : Char → Prop) : List Char → List Char → Prop where
  | nil : Inserted p [] []
  | keep (c : Char) {s t : List Char} : Inserted p s t → Inserted p (c :: s) (c :: t)
  | ins (c : Char) {s t : List Char} : p c → Inserted p s t → Inserted p s (c :: t)

/-- The whitespace characters named by the specification: space, tab, newline
and carriage return. -/
def IsWhitespace (c : Char) : Prop :=
  c = ' ' ∨ c = '\t' ∨ c = '\n' ∨ c = '\r'

/-- The whitespace characters the program tolerates: the space, removed by
`GenerateCode`, and the newline and carriage return, dropped by the decoder. -/
def IsIgnoredWhitespace (c : Char) : Prop :=
  c = ' ' ∨ c = '\n' ∨ c = '\r'

/-- The character of the standard Base32 alphabet for a 5-bit value (RFC 4648,
table 3): `A .. Z` for 0 .. 25 and `2 .. 7` for 26 .. 31. -/
def base32Char (v : Nat) : Char :=
  if v < 26 then Char.ofNat (65 + v) else Char.ofNat (24 + v)

/-- The standard Base32 encoding of a byte string with `=` padding (RFC 4648,
section 6): every group of five bytes gives eight characters, and a final
group of one, two, three or four bytes gives two, four, five or seven
characters followed by six, four, three or one `=`. -/
def encodeBase32 : List Nat → List Char
  | [] => []
  | [a] =>
    [base32Char (a / 8), base32Char (a % 8 * 4), '=', '=', '=', '=', '=', '=']
  | [a, b] =>
    [base32Char (a / 8), base32Char (a % 8 * 4 + b / 64), base32Char (b / 2 % 32),
      base32Char (b % 2 * 16), '=', '=', '=', '=']
  | [a, b, c] =>
    [base32Char (a / 8), base32Char (a % 8 * 4 + b / 64), base32Char (b / 2 % 32),
      base32Char (b % 2 * 16 + c / 16), base32Char (c % 16 * 2), '=', '=', '=']
  | [a, b, c, d] =>
    [base32Char (a / 8), base32Char (a % 8 * 4 + b / 64), base32Char (b / 2 % 32),
      base32Char (b % 2 * 16 + c / 16), base32Char (c % 16 * 2 + d / 128),
      base32Char (d / 4 % 32), base32Char (d % 4 * 8), '=']
  | a :: b :: c :: d :: e :: rest =>
    base32Char (a / 8) :: base32Char (a % 8 * 4 + b / 64) :: base32Char (b / 2 % 32) ::
      base32Char (b % 2 * 16 + c / 16) :: base32Char (c % 16 * 2 + d / 128) ::
      base32Char (d / 4 % 32) :: base32Char (d % 4 * 8 + e / 32) :: base32Char (e % 32) ::
      encodeBase32 rest

/-- The Base32 text of a byte string, as a string. -/
def EncodeToString (k : List Nat) : String :=
  String.mk (encodeBase32 k)

/-- The text `s` is valid standard Base32: it is the encoding of some byte
string under RFC 4648, section 6, with `=` padding. -/
def ValidBase32 (s : String) : Prop :=
  ∃ k : List Nat, (∀ b ∈ k, b < 256) ∧ s = EncodeToString k

/-! # Properties -/

/-! ## Digest length -/

theorem blockStep_length (h block : List Nat) : (blockStep h block).length = 5 := rfl

theorem blocks_length (n : Nat) (h p : List Nat) (hh : h.length = 5) :
    (blocks n h p).length = 5 := by
  induction n generalizing h p with
  | zero => simpa [blocks] using hh
  | succ n ih => exact ih _ _ (blockStep_length h _)

theorem putUint32_lt (v b : Nat) (hb : b ∈ putUint32 v) : b < 256 := by
  simp only [putUint32, List.mem_cons, List.mem_singleton, List.not_mem_nil, or_false] at hb
  rcases hb with h | h | h | h <;> subst h <;> exact Nat.mod_lt _ (by decide)

theorem flatMap_putUint32_length (l : List Nat) (h5 : l.length = 5) :
    (l.flatMap putUint32).length = 20 := by
  match l, h5 with
  | [a, b, c, d, e], _ => rfl

theorem sha1Sum_length (msg : List Nat) : (sha1Sum msg).length = 20 :=
  flatMap_putUint32_length _ (blocks_length _ _ _ rfl)

theorem sha1Sum_lt (msg : List Nat) (b : Nat) (hb : b ∈ sha1Sum msg) : b < 256 := by
  unfold sha1Sum at hb
  rw [List.mem_flatMap] at hb
  obtain ⟨w, _, hw⟩ := hb
  exact putUint32_lt w b hw

theorem hmacSha1_length (key msg : List Nat) : (hmacSha1 key msg).length = 20 :=
  sha1Sum_length _

theorem hmacSha1_lt (key msg : List Nat) (b : Nat) (hb : b ∈ hmacSha1 key msg) : b < 256 :=
  sha1Sum_lt _ b hb

/-! ## Formatting -/

theorem digitChar_toNat (d : Nat) (hd : d < 10) : (digitChar d).toNat = 48 + d := by
  interval_cases d <;> rfl

theorem digitChar_isDigit (d : Nat) (hd : d < 10) : (digitChar d).isDigit = true := by
  interval_cases d <;> rfl

/-- Value of a list of digit characters. -/
theorem foldl_digits_append (xs : List Char) (c : Char) (a : Nat) :
    (xs ++ [c]).foldl (fun acc c => 10 * acc + (c.toNat - 48)) a =
      10 * xs.foldl (fun acc c => 10 * acc + (c.toNat - 48)) a + (c.toNat - 48) := by
  simp [List.foldl_append]

theorem formatDigits_acc (fuel u : Nat) (acc : List Char) :
    formatDigits fuel u acc = formatDigits fuel u [] ++ acc := by
  induction fuel generalizing u acc with
  | zero => simp [formatDigits]
  | succ f ih =>
    unfold formatDigits
    split
    · rw [ih (u / 10) (digitChar (u % 10) :: acc), ih (u / 10) [digitChar (u % 10)]]
      simp
    · simp

theorem formatDigits_value (fuel u : Nat) (hu : u < 10 ^ (fuel + 1)) :
    (formatDigits fuel u []).foldl (fun acc c => 10 * acc + (c.toNat - 48)) 0 = u := by
  induction fuel generalizing u with
  | zero =>
    have h10 : u < 10 := by simpa using hu
    simp [formatDigits, Nat.mod_eq_of_lt h10, digitChar_toNat u h10]
  | succ f ih =>
    unfold formatDigits
    split
    · rw [formatDigits_acc, foldl_digits_append, ih (u / 10) (by
        rw [Nat.div_lt_iff_lt_mul (by decide)]; rw [pow_succ] at hu; exact hu),
        digitChar_toNat _ (Nat.mod_lt _ (by decide))]
      omega
    · have h10 : u < 10 := by omega
      simp [digitChar_toNat u h10]

theorem formatDigits_length (fuel u k : Nat) (hu : u < 10 ^ (k + 1)) :
    (formatDigits fuel u []).length ≤ k + 1 := by
  induction fuel generalizing u k with
  | zero => simp [formatDigits]
  | succ f ih =>
    unfold formatDigits
    split
    · rename_i h10
      rw [formatDigits_acc]
      cases k with
      | zero => simp at hu; omega
      | succ k =>
        have := ih (u / 10) k (by
          rw [Nat.div_lt_iff_lt_mul (by decide)]; rw [pow_succ] at hu; exact hu)
        simp; omega
    · simp

theorem formatDigits_isDigit (fuel u : Nat) (c : Char) (hc : c ∈ formatDigits fuel u []) :
    c.isDigit = true := by
  induction fuel generalizing u with
  | zero =>
    simp only [formatDigits, List.mem_singleton] at hc
    subst hc
    exact digitChar_isDigit _ (Nat.mod_lt _ (by decide))
  | succ f ih =>
    unfold formatDigits at hc
    split at hc
    · rw [formatDigits_acc, List.mem_append, List.mem_singleton] at hc
      rcases hc with h | h
      · exact ih _ h
      · subst h; exact digitChar_isDigit _ (Nat.mod_lt _ (by decide))
    · rw [List.mem_singleton] at hc
      subst hc; exact digitChar_isDigit _ (by omega)

theorem foldl_zeros (n : Nat) (xs : List Char) :
    (List.replicate n '0' ++ xs).foldl (fun acc c => 10 * acc + (c.toNat - 48)) 0 =
      xs.foldl (fun acc c => 10 * acc + (c.toNat - 48)) 0 := by
  induction n with
  | zero => simp
  | succ n ih => simpa [List.replicate_succ] using ih

/-- A value below one million is formatted as six digits that read back as the
value. -/
theorem sprintf06d_spec (u : Nat) (hu : u < 1000000) :
    (sprintf06d u).length = 6 ∧ (∀ c ∈ (sprintf06d u).data, c.isDigit = true) ∧
      decimalValue (sprintf06d u) = u := by
  have hlen := formatDigits_length 10 u 5 (by simpa using hu)
  refine ⟨?_, ?_, ?_⟩
  · simp only [sprintf06d, String.length, List.length_append, List.length_replicate]
    omega
  · intro c hc
    simp only [sprintf06d, List.mem_append, List.mem_replicate] at hc
    rcases hc with ⟨_, h⟩ | h
    · subst h; rfl
    · exact formatDigits_isDigit _ _ _ h
  · simp only [sprintf06d, decimalValue]
    rw [foldl_zeros]
    exact formatDigits_value 10 u (lt_of_lt_of_le hu (by norm_num))

/-! ## Dynamic truncation -/

theorem beUint32_eq (b0 b1 b2 b3 : Nat) (h0 : b0 < 256) (h1 : b1 < 256) (h2 : b2 < 256)
    (h3 : b3 < 256) :
    beUint32 b0 b1 b2 b3 = b0 * 2 ^ 24 + b1 * 2 ^ 16 + b2 * 2 ^ 8 + b3 := by
  unfold beUint32
  have e1 : b3 ||| (b2 <<< 8) = 2 ^ 8 * b2 + b3 := by
    rw [Nat.shiftLeft_eq, Nat.or_comm, Nat.mul_comm,
      ← Nat.mul_add_lt_is_or (by omega : b3 < 2 ^ 8) b2]
  have e2 : (2 ^ 8 * b2 + b3) ||| (b1 <<< 16) = 2 ^ 16 * b1 + (2 ^ 8 * b2 + b3) := by
    rw [Nat.shiftLeft_eq, Nat.or_comm, Nat.mul_comm,
      ← Nat.mul_add_lt_is_or (by omega : 2 ^ 8 * b2 + b3 < 2 ^ 16) b1]
  have e3 : (2 ^ 16 * b1 + (2 ^ 8 * b2 + b3)) ||| (b0 <<< 24) =
      2 ^ 24 * b0 + (2 ^ 16 * b1 + (2 ^ 8 * b2 + b3)) := by
    rw [Nat.shiftLeft_eq, Nat.or_comm, Nat.mul_comm,
      ← Nat.mul_add_lt_is_or (by omega : 2 ^ 16 * b1 + (2 ^ 8 * b2 + b3) < 2 ^ 24) b0]
  rw [e1, e2, e3]
  omega

theorem list_four_of_length (l : List Nat) (h : 4 ≤ l.length) :
    ∃ b0 b1 b2 b3 rest, l = b0 :: b1 :: b2 :: b3 :: rest := by
  match l, h with
  | b0 :: b1 :: b2 :: b3 :: rest, _ => exact ⟨b0, b1, b2, b3, rest, rfl⟩

/-- On a 20-byte digest the truncation never leaves the digest, and its result
is the formatted reduction of the four bytes at the offset. -/
theorem truncateCode_eq (hash : List Nat) (hlen : hash.length = 20) :
    ∃ b0 b1 b2 b3,
      hash.getD (hash.getD 19 0 &&& 0xf) 0 = b0 ∧
      hash.getD ((hash.getD 19 0 &&& 0xf) + 1) 0 = b1 ∧
      hash.getD ((hash.getD 19 0 &&& 0xf) + 2) 0 = b2 ∧
      hash.getD ((hash.getD 19 0 &&& 0xf) + 3) 0 = b3 ∧
      truncateCode hash =
        some (sprintf06d ((beUint32 b0 b1 b2 b3 &&& 0x7fffffff) % 1000000)) := by
  have hlast : hash.get? (hash.length - 1) = some (hash.getD 19 0) := by
    rw [hlen]
    simp [List.getD_eq_getElem?_getD, List.getElem?_eq_getElem (by omega : 19 < hash.length)]
  have hoff : (hash.getD 19 0 &&& 0xf) ≤ 15 := Nat.and_le_right
  generalize hoffeq : hash.getD 19 0 &&& 0xf = offset at hoff
  obtain ⟨b0, b1, b2, b3, rest, hdrop⟩ :=
    list_four_of_length (hash.drop offset) (by rw [List.length_drop]; omega)
  have hget : ∀ i, hash.getD (offset + i) 0 = (b0 :: b1 :: b2 :: b3 :: rest).getD i 0 := by
    intro i
    rw [← hdrop, List.getD_eq_getElem?_getD, List.getD_eq_getElem?_getD, List.getElem?_drop]
  refine ⟨b0, b1, b2, b3, ?_, ?_, ?_, ?_, ?_⟩
  · simpa using hget 0
  · simpa using hget 1
  · simpa using hget 2
  · simpa using hget 3
  · unfold truncateCode
    rw [if_neg (by omega), hlast]
    simp only [hoffeq]
    rw [if_pos (by omega), hdrop]

/-! ## `GenerateCode` -/

/-- The value of `GenerateCode` in terms of the normalised secret. -/
theorem GenerateCode_eq (upperTable : Char → Char) (now : Int) (secret : String) :
    GenerateCode upperTable now secret =
      match DecodeString (toUpper upperTable (removeSpaces secret)) with
      | .corrupt err => some ("", some (.invalidSecretFormat err))
      | .ok secretBytes =>
        match generateTOTP secretBytes (timeStep now) with
        | none => none
        | some code => some (code, none) := rfl

/-- The function `generateTOTP` always returns a code: the truncation stays
inside the 20-byte digest. -/
theorem generateTOTP_eq (secret : List Nat) (interval : Int) :
    ∃ b0 b1 b2 b3, b0 < 256 ∧ b1 < 256 ∧ b2 < 256 ∧ b3 < 256 ∧
      generateTOTP secret interval =
        some (sprintf06d ((beUint32 b0 b1 b2 b3 &&& 0x7fffffff) % 1000000)) := by
  have hlen := hmacSha1_length secret (putUint64 (uint64 interval))
  obtain ⟨b0, b1, b2, b3, h0, h1, h2, h3, h⟩ := truncateCode_eq _ hlen
  have hmem : ∀ i, i < 20 →
      (hmacSha1 secret (putUint64 (uint64 interval))).getD i 0 < 256 := by
    intro i hi
    apply hmacSha1_lt secret (putUint64 (uint64 interval))
    rw [List.getD_eq_getElem?_getD, List.getElem?_eq_getElem (by omega)]
    exact List.getElem_mem _
  have hoff : ((hmacSha1 secret (putUint64 (uint64 interval))).getD 19 0 &&& 0xf) ≤ 15 :=
    Nat.and_le_right
  refine ⟨b0, b1, b2, b3, ?_, ?_, ?_, ?_, h⟩
  · rw [← h0]; exact hmem _ (by omega)
  · rw [← h1]; exact hmem _ (by omega)
  · rw [← h2]; exact hmem _ (by omega)
  · rw [← h3]; exact hmem _ (by omega)

/-! ## The bound on the iterations of the decoder -/

/-- Reading a quantum never lengthens the unread input. -/
theorem decodeQuantum_rest_le (olen : Nat) (n : Nat) :
    ∀ (src dbuf d : List Nat) (l : Nat) (e : Bool) (rest : List Nat),
      decodeQuantum olen n src dbuf = .done d l e rest → rest.length ≤ src.length := by
  induction n with
  | zero =>
    intro src dbuf d l e rest h
    simp only [decodeQuantum, QuantumResult.done.injEq] at h
    rw [← h.2.2.2]
  | succ n ih =>
    intro src dbuf d l e rest h
    cases src with
    | nil => simp [decodeQuantum] at h
    | cons c src =>
      simp only [decodeQuantum] at h
      split at h
      · split at h
        · exact QuantumResult.noConfusion h
        · split at h
          · exact QuantumResult.noConfusion h
          · split at h
            · exact QuantumResult.noConfusion h
            · simp only [QuantumResult.done.injEq] at h
              rw [← h.2.2.2]
              exact Nat.le_succ _
      · split at h
        · exact QuantumResult.noConfusion h
        · exact Nat.le_succ_of_le (ih _ _ _ _ _ _ h)

/-- A quantum read from a non-empty input consumes at least one byte. -/
theorem decodeQuantum_rest_lt (olen : Nat) (c : Nat) (src d : List Nat) (l : Nat) (e : Bool)
    (rest : List Nat) (h : decodeQuantum olen 8 (c :: src) [] = .done d l e rest) :
    rest.length < (c :: src).length := by
  simp only [decodeQuantum] at h
  split at h
  · rename_i hpad
    simp at hpad
  · split at h
    · exact QuantumResult.noConfusion h
    · exact Nat.lt_succ_of_le (decodeQuantum_rest_le _ _ _ _ _ _ _ _ h)

/-- The result of the outer loop is the same for every bound that is at least
the length of the input: the bound `src.length` of `DecodeString` is never
exhausted. -/
theorem decodeLoop_fuel (olen : Nat) (fuel : Nat) :
    ∀ (fuel2 : Nat) (src : List Nat), src.length ≤ fuel → src.length ≤ fuel2 →
      decodeLoop olen fuel src = decodeLoop olen fuel2 src := by
  induction fuel with
  | zero =>
    intro fuel2 src h1 _
    have hnil : src = [] := List.eq_nil_of_length_eq_zero (Nat.le_zero.mp h1)
    subst hnil
    cases fuel2 <;> simp [decodeLoop]
  | succ fuel ih =>
    intro fuel2 src h1 h2
    cases src with
    | nil => cases fuel2 <;> simp [decodeLoop]
    | cons c src =>
      cases fuel2 with
      | zero => simp at h2
      | succ fuel2 =>
        simp only [decodeLoop, List.length_cons, Nat.add_one_ne_zero, if_false]
        cases hq : decodeQuantum olen 8 (c :: src) [] with
        | corrupt off => rfl
        | done d l e rest =>
          have hlt := decodeQuantum_rest_lt olen c src d l e rest hq
          simp only [List.length_cons] at hlt h1 h2
          simp only []
          rw [ih fuel2 rest (by omega) (by omega)]

/-! ## The models of the library functions on published test vectors -/

set_option maxRecDepth 100000 in
/-- The SHA-1 digests of the empty message and of `abc` (FIPS 180). -/
theorem sha1Sum_vectors :
    sha1Sum [] =
      [218, 57, 163, 238, 94, 107, 75, 13, 50, 85, 191, 239, 149, 96, 24, 144, 175, 216, 7, 9] ∧
    sha1Sum [97, 98, 99] =
      [169, 153, 62, 54, 71, 6, 129, 106, 186, 62, 37, 113, 120, 80, 194, 108, 156, 208, 216,
      157] := by
  constructor <;> decide

set_option maxRecDepth 100000 in
/-- Test cases 1 and 6 of RFC 2202 for HMAC-SHA1: a 20-byte key, and an 80-byte
key, which is hashed first. -/
theorem hmacSha1_vectors :
    hmacSha1 (List.replicate 20 0x0b) (utf8Bytes "Hi There") =
      [182, 23, 49, 134, 85, 5, 114, 100, 226, 139, 192, 182, 251, 55, 140, 142, 241, 70, 190,
      0] ∧
    hmacSha1 (List.replicate 80 0xaa)
        (utf8Bytes "Test Using Larger Than Block-Size Key - Hash Key First") =
      [170, 74, 229, 225, 82, 114, 208, 14, 149, 112, 86, 55, 206, 138, 59, 85, 237, 64, 33, 18] := by
  constructor <;> decide

/-- The error offsets of `DecodeString` on the corrupt-input table of the tests
of `encoding/base32`; `-1` stands for no error. -/
theorem decodeString_corrupt_table :
    (["", "!!!!", "x===", "AA=A====", "AAA=AAAA", "MMMMMMMMM", "MMMMMM", "A=", "AA=", "AA==",
        "AA===", "AAAA=", "AAAA==", "AAAAA=", "AAAAA==", "A=======", "AA======", "AAA=====",
        "AAAA====", "AAAAA===", "AAAAAA==", "AAAAAAA=", "AAAAAAAA"].map
      (fun s => match DecodeString s with
        | .ok _ => (-1 : Int)
        | .corrupt e => e.offset)) =
      [-1, 0, 0, 2, 3, 8, 0, 1, 3, 4, 5, 5, 6, 6, 7, 1, -1, 3, -1, -1, 6, -1, -1] := by
  decide

/-- The decodings of the examples of RFC 4648, section 10. -/
theorem decodeString_rfc4648 :
    [DecodeString "", DecodeString "MY======", DecodeString "MZXQ====",
        DecodeString "MZXW6===", DecodeString "MZXW6YQ=", DecodeString "MZXW6YTB",
        DecodeString "MZXW6YTBOI======"] =
      [.ok (utf8Bytes ""), .ok (utf8Bytes "f"), .ok (utf8Bytes "fo"), .ok (utf8Bytes "foo"),
        .ok (utf8Bytes "foob"), .ok (utf8Bytes "fooba"), .ok (utf8Bytes "foobar")] := by
  decide

/-! ## The RFC 6238 test vectors -/

theorem rfcSecret_normalized (upperTable : Char → Char) :
    toUpper upperTable (removeSpaces "GEZDGNBVGY3TQOJQGEZDGNBVGY3TQOJQ") =
      "GEZDGNBVGY3TQOJQGEZDGNBVGY3TQOJQ" := rfl

set_option maxRecDepth 100000 in
theorem rfcSecret_decoded :
    DecodeString "GEZDGNBVGY3TQOJQGEZDGNBVGY3TQOJQ" =
      .ok [49, 50, 51, 52, 53, 54, 55, 56, 57, 48, 49, 50, 51, 52, 53, 54, 55, 56, 57, 48] := by
  decide

theorem rfcSecret_ascii :
    utf8Bytes "12345678901234567890" =
      [49, 50, 51, 52, 53, 54, 55, 56, 57, 48, 49, 50, 51, 52, 53, 54, 55, 56, 57, 48] := by
  decide

set_option maxRecDepth 100000 in
/-- C1: with the Base32 encoding `GEZDGNBVGY3TQOJQGEZDGNBVGY3TQOJQ` of the RFC 6238
SHA-1 test secret `12345678901234567890`, `GenerateCode` at the Unix times 59,
1111111109, 1111111111, 1234567890 and 2000000000 returns, without error, the
codes `287082`, `081804`, `050471`, `005924` and `279037`, which are the last six
digits of the reference values 94287082, 07081804, 14050471, 89005924 and
69279037 of the RFC. -/
theorem GenerateCode_rfc6238_vectors (upperTable : Char → Char) :
    DecodeString (toUpper upperTable (removeSpaces "GEZDGNBVGY3TQOJQGEZDGNBVGY3TQOJQ")) =
        .ok (utf8Bytes "12345678901234567890") ∧
      GenerateCode upperTable 59 "GEZDGNBVGY3TQOJQGEZDGNBVGY3TQOJQ" =
        some (sprintf06d (94287082 % 1000000), none) ∧
      GenerateCode upperTable 1111111109 "GEZDGNBVGY3TQOJQGEZDGNBVGY3TQOJQ" =
        some (sprintf06d (7081804 % 1000000), none) ∧
      GenerateCode upperTable 1111111111 "GEZDGNBVGY3TQOJQGEZDGNBVGY3TQOJQ" =
        some (sprintf06d (14050471 % 1000000), none) ∧
      GenerateCode upperTable 1234567890 "GEZDGNBVGY3TQOJQGEZDGNBVGY3TQOJQ" =
        some (sprintf06d (89005924 % 1000000), none) ∧
      GenerateCode upperTable 2000000000 "GEZDGNBVGY3TQOJQGEZDGNBVGY3TQOJQ" =
        some (sprintf06d (69279037 % 1000000), none) ∧
      [sprintf06d (94287082 % 1000000), sprintf06d (7081804 % 1000000),
        sprintf06d (14050471 % 1000000), sprintf06d (89005924 % 1000000),
        sprintf06d (69279037 % 1000000)] =
        ["287082", "081804", "050471", "005924", "279037"] := by
  refine ⟨?_, ?_, ?_, ?_, ?_, ?_, ?_⟩
  · rewrite [rfcSecret_normalized, rfcSecret_decoded, rfcSecret_ascii]; exact Eq.refl _
  · rewrite [GenerateCode_eq, rfcSecret_normalized, rfcSecret_decoded]; decide
  · rewrite [GenerateCode_eq, rfcSecret_normalized, rfcSecret_decoded]; decide
  · rewrite [GenerateCode_eq, rfcSecret_normalized, rfcSecret_decoded]; decide
  · rewrite [GenerateCode_eq, rfcSecret_normalized, rfcSecret_decoded]; decide
  · rewrite [GenerateCode_eq, rfcSecret_normalized, rfcSecret_decoded]; decide
  · decide

/-! ## Format of the code -/

/-- C2: for every secret byte string and every time step `generateTOTP` returns a
string of exactly six characters, each a decimal digit, whose decimal value is
at most 999999 and of which it is the zero-padded six-digit rendering. -/
theorem generateTOTP_six_digits (secret : List Nat) (interval : Int) :
    ∃ code, generateTOTP secret interval = some code ∧ code.length = 6 ∧
      (∀ c ∈ code.data, c.isDigit = true) ∧ decimalValue code ≤ 999999 ∧
      code = sprintf06d (decimalValue code) := by
  obtain ⟨b0, b1, b2, b3, -, -, -, -, h⟩ := generateTOTP_eq secret interval
  have hlt : (beUint32 b0 b1 b2 b3 &&& 0x7fffffff) % 1000000 < 1000000 :=
    Nat.mod_lt _ (by decide)
  obtain ⟨h6, hdig, hval⟩ := sprintf06d_spec _ hlt
  refine ⟨_, h, h6, hdig, ?_, ?_⟩
  · rw [hval]; omega
  · rw [hval]

/-! ## Dynamic truncation and reduction -/

/-- C3: for every 20-byte digest `d`, the truncated value of the specification
(the four bytes at offset `d[19] & 0x0F` as a big-endian number, masked with
`0x7FFFFFFF`) is below `2^31`, and the code computed from `d` (which is the code
`generateTOTP` returns whenever `d` is its HMAC digest) reads as the truncated
value modulo 1000000; every HMAC digest is such a `d`, and the value 42 is
rendered as `000042`. -/
theorem truncateCode_dynamic_truncation (d : List Nat) (hlen : d.length = 20)
    (hbyte : ∀ b ∈ d, b < 256) :
    specTruncated d < 2 ^ 31 ∧
      (∃ code, truncateCode d = some code ∧
        decimalValue code = specTruncated d % 1000000 ∧
        ∀ secret interval, hmacSha1 secret (putUint64 (uint64 interval)) = d →
          generateTOTP secret interval = some code) ∧
      (∀ key msg, (hmacSha1 key msg).length = 20 ∧ ∀ b ∈ hmacSha1 key msg, b < 256) ∧
      sprintf06d 42 = "000042" := by
  have hmask : specTruncated d < 2 ^ 31 := by
    unfold specTruncated
    exact Nat.and_lt_two_pow _ (by norm_num)
  obtain ⟨b0, b1, b2, b3, h0, h1, h2, h3, h⟩ := truncateCode_eq d hlen
  have hmem : ∀ i, i < 20 → d.getD i 0 < 256 := by
    intro i hi
    apply hbyte
    rw [List.getD_eq_getElem?_getD, List.getElem?_eq_getElem (by omega)]
    exact List.getElem_mem _
  have hoff : (d.getD 19 0 &&& 0xf) ≤ 15 := Nat.and_le_right
  have hspec : specTruncated d = beUint32 b0 b1 b2 b3 &&& 0x7fffffff := by
    rw [beUint32_eq b0 b1 b2 b3 (by rw [← h0]; exact hmem _ (by omega))
      (by rw [← h1]; exact hmem _ (by omega)) (by rw [← h2]; exact hmem _ (by omega))
      (by rw [← h3]; exact hmem _ (by omega))]
    simp only [specTruncated, h0, h1, h2, h3]
  refine ⟨hmask, ⟨_, h, ?_, ?_⟩, fun key msg => ⟨hmacSha1_length key msg, hmacSha1_lt key msg⟩,
    by decide⟩
  · rw [(sprintf06d_spec _ (Nat.mod_lt _ (by decide))).2.2, hspec]
  · intro secret interval hd
    simp only [generateTOTP, hd, h]

/-- Witness of C3 at the HMAC-SHA1 digest of the RFC test secret and the counter 1. -/
theorem truncateCode_dynamic_truncation_witness :
    specTruncated [117, 164, 138, 25, 212, 203, 225, 0, 100, 78, 138, 193, 57, 126, 234,
        116, 122, 45, 51, 171] = 1094287082 ∧
      truncateCode [117, 164, 138, 25, 212, 203, 225, 0, 100, 78, 138, 193, 57, 126, 234,
        116, 122, 45, 51, 171] = some "287082" ∧
      specTruncated [117, 164, 138, 25, 212, 203, 225, 0, 100, 78, 138, 193, 57, 126, 234,
        116, 122, 45, 51, 171] < 2 ^ 31 :=
  ⟨by decide, by decide,
    (truncateCode_dynamic_truncation [117, 164, 138, 25, 212, 203, 225, 0, 100, 78, 138, 193,
      57, 126, 234, 116, 122, 45, 51, 171] (by decide) (by decide)).1⟩

/-! ## Failure on an invalid secret -/

/-- The normalised form of the text `not-base32!`. -/
theorem notBase32_normalized (upperTable : Char → Char) :
    toUpper upperTable (removeSpaces "not-base32!") = "NOT-BASE32!" := rfl

theorem notBase32_decoded : DecodeString "NOT-BASE32!" = .corrupt ⟨3⟩ := by
  decide

/-- The two ways `GenerateCode` returns: the error of the decoder with an empty
code, or a code of `generateTOTP` with no error. -/
theorem GenerateCode_cases (upperTable : Char → Char) (now : Int) (secret : String) :
    (∃ err, DecodeString (toUpper upperTable (removeSpaces secret)) = .corrupt err ∧
        GenerateCode upperTable now secret = some ("", some (.invalidSecretFormat err))) ∨
      (∃ bytes code, DecodeString (toUpper upperTable (removeSpaces secret)) = .ok bytes ∧
        generateTOTP bytes (timeStep now) = some code ∧
        GenerateCode upperTable now secret = some (code, none)) := by
  rw [GenerateCode_eq]
  cases hdec : DecodeString (toUpper upperTable (removeSpaces secret)) with
  | corrupt err => exact Or.inl ⟨err, rfl, rfl⟩
  | ok bytes =>
    obtain ⟨b0, b1, b2, b3, -, -, -, -, h⟩ := generateTOTP_eq bytes (timeStep now)
    exact Or.inr ⟨bytes, _, rfl, h, by simp only [h]⟩

/-! ## Normalisation of the secret -/

theorem normalized_data (upperTable : Char → Char) (s : String) :
    (toUpper upperTable (removeSpaces s)).data =
      (s.data.filter (fun c => c != ' ')).map (toUpperRune upperTable) := rfl

theorem caseChanged_upper (upperTable : Char → Char) (c d : Char) (h : CaseChanged c d) :
    toUpperRune upperTable c = toUpperRune upperTable d := by
  unfold toUpperRune
  rcases h with ⟨h1, h2, h3⟩ | ⟨h1, h2, h3⟩
  · rw [if_pos (by omega), if_pos ⟨h1, h2⟩, if_pos (by omega), if_neg (by omega), ← h3,
      Char.ofNat_toNat]
  · rw [if_pos (by omega), if_neg (by omega), if_pos (by omega), if_pos (by omega), h3,
      Nat.add_sub_cancel, Char.ofNat_toNat]

theorem caseChanged_not_space (c d : Char) (h : CaseChanged c d) :
    (c != ' ') = true ∧ (d != ' ') = true := by
  have hsp : (' ' : Char).toNat = 32 := rfl
  constructor
  · rw [bne_iff_ne]
    intro hc
    unfold CaseChanged at h
    rw [hc, hsp] at h
    rcases h with ⟨h1, _, _⟩ | ⟨h1, _, _⟩ <;> omega
  · rw [bne_iff_ne]
    intro hd
    unfold CaseChanged at h
    rw [hd, hsp] at h
    rcases h with ⟨h1, h2, h3⟩ | ⟨h1, h2, h3⟩ <;> omega

/-- Variants have the same normalised form. -/
theorem variant_normalized (upperTable : Char → Char) {s t : List Char}
    (h : SecretVariant s t) :
    (s.filter (fun c => c != ' ')).map (toUpperRune upperTable) =
      (t.filter (fun c => c != ' ')).map (toUpperRune upperTable) := by
  induction h with
  | nil => rfl
  | keep c _ ih =>
    by_cases hc : (c != ' ') = true
    · simp only [List.filter_cons, hc, if_true, List.map_cons, ih]
    · simp only [List.filter_cons, hc, if_false, ih, Bool.false_eq_true]
  | changeCase c d hcd _ ih =>
    obtain ⟨hc, hd⟩ := caseChanged_not_space c d hcd
    simp only [List.filter_cons, hc, hd, if_true, List.map_cons, ih,
      caseChanged_upper upperTable c d hcd]
  | insertSpace _ ih =>
    rw [ih, List.filter_cons, if_neg (by decide)]
  | removeSpace _ ih =>
    rw [← ih, List.filter_cons, if_neg (by decide)]

/-- C5: `GenerateCode` gives the same result, at every time, for a secret and
for every variant of it obtained by changing the case of ASCII letters and by
inserting or removing space characters. -/
theorem GenerateCode_variant (upperTable : Char → Char) (now : Int) (s t : String)
    (h : SecretVariant s.data t.data) :
    GenerateCode upperTable now s = GenerateCode upperTable now t := by
  have hn : toUpper upperTable (removeSpaces s) = toUpper upperTable (removeSpaces t) :=
    String.ext (by rw [normalized_data, normalized_data, variant_normalized upperTable h])
  rw [GenerateCode_eq, GenerateCode_eq, hn]

/-- Witness of C5: ` ab cd ef gh ij kl ` is a variant of `ABCDEFGHIJKL`, and the
two give the same result at every time. -/
theorem GenerateCode_variant_witness :
    SecretVariant " ab cd ef gh ij kl ".data "ABCDEFGHIJKL".data ∧
      ∀ (upperTable : Char → Char) (now : Int),
        GenerateCode upperTable now " ab cd ef gh ij kl " =
          GenerateCode upperTable now "ABCDEFGHIJKL" := by
  have hv : SecretVariant " ab cd ef gh ij kl ".data "ABCDEFGHIJKL".data := by
    show SecretVariant
      [' ', 'a', 'b', ' ', 'c', 'd', ' ', 'e', 'f', ' ', 'g', 'h', ' ', 'i', 'j', ' ', 'k',
        'l', ' ']
      ['A', 'B', 'C', 'D', 'E', 'F', 'G', 'H', 'I', 'J', 'K', 'L']
    repeat
      first
      | exact SecretVariant.nil
      | apply SecretVariant.removeSpace
      | refine SecretVariant.changeCase _ _ (by unfold CaseChanged; decide) ?_
  exact ⟨hv, fun upperTable now => GenerateCode_variant upperTable now _ _ hv⟩

/-! ## Whitespace in the secret -/

theorem stripNewlines_append (a b : List Nat) :
    stripNewlines (a ++ b) = stripNewlines a ++ stripNewlines b := by
  simp [stripNewlines]

theorem ignored_normalized (upperTable : Char → Char) (c : Char) (hc : IsIgnoredWhitespace c) :
    stripNewlines (((([c] : List Char).filter (fun c => c != ' ')).map
      (toUpperRune upperTable)).flatMap utf8EncodeRune) = [] := by
  rcases hc with h | h | h <;> subst h <;> rfl

/-- Inserting ignored whitespace does not change the bytes the decoder reads. -/
theorem inserted_stripped (upperTable : Char → Char) {s t : List Char}
    (h : Inserted IsIgnoredWhitespace s t) :
    stripNewlines (((t.filter (fun c => c != ' ')).map (toUpperRune upperTable)).flatMap
        utf8EncodeRune) =
      stripNewlines (((s.filter (fun c => c != ' ')).map (toUpperRune upperTable)).flatMap
        utf8EncodeRune) := by
  induction h with
  | nil => rfl
  | @keep c s t _ ih =>
    have hs : c :: s = [c] ++ s := rfl
    have ht : c :: t = [c] ++ t := rfl
    rw [hs, ht]
    simp only [List.filter_append, List.map_append, List.flatMap_append, stripNewlines_append, ih]
  | @ins c s t hc _ ih =>
    have ht : c :: t = [c] ++ t := rfl
    rw [ht]
    simp only [List.filter_append, List.map_append, List.flatMap_append, stripNewlines_append, ih,
      ignored_normalized upperTable c hc, List.nil_append]

theorem DecodeString_eq_of_stripped (s t : String)
    (h : stripNewlines (utf8Bytes s) = stripNewlines (utf8Bytes t)) :
    DecodeString s = DecodeString t := by
  unfold DecodeString
  simp only [h]

/-- C6 (as amended): `GenerateCode` gives the same result for a secret and for
every text obtained from it by inserting spaces, newlines and carriage
returns. -/
theorem GenerateCode_insert_whitespace (upperTable : Char → Char) (now : Int) (s t : String)
    (h : Inserted IsIgnoredWhitespace s.data t.data) :
    GenerateCode upperTable now t = GenerateCode upperTable now s := by
  have hd : DecodeString (toUpper upperTable (removeSpaces t)) =
      DecodeString (toUpper upperTable (removeSpaces s)) :=
    DecodeString_eq_of_stripped _ _ (by
      unfold utf8Bytes
      rw [normalized_data, normalized_data]
      exact inserted_stripped upperTable h)
  rw [GenerateCode_eq, GenerateCode_eq, hd]

/-- Witness of C6: a space, a newline and a carriage return inserted into the
RFC test secret. -/
theorem GenerateCode_insert_whitespace_witness :
    Inserted IsIgnoredWhitespace "GEZDGNBVGY3TQOJQGEZDGNBVGY3TQOJQ".data
        "GEZDGNBV GY3TQOJQ\nGEZDGNBV\rGY3TQOJQ".data ∧
      ∀ (upperTable : Char → Char) (now : Int),
        GenerateCode upperTable now "GEZDGNBV GY3TQOJQ\nGEZDGNBV\rGY3TQOJQ" =
          GenerateCode upperTable now "GEZDGNBVGY3TQOJQGEZDGNBVGY3TQOJQ" := by
  have hi : Inserted IsIgnoredWhitespace "GEZDGNBVGY3TQOJQGEZDGNBVGY3TQOJQ".data
      "GEZDGNBV GY3TQOJQ\nGEZDGNBV\rGY3TQOJQ".data := by
    show Inserted IsIgnoredWhitespace
      ['G', 'E', 'Z', 'D', 'G', 'N', 'B', 'V', 'G', 'Y', '3', 'T', 'Q', 'O', 'J', 'Q',
        'G', 'E', 'Z', 'D', 'G', 'N', 'B', 'V', 'G', 'Y', '3', 'T', 'Q', 'O', 'J', 'Q']
      ['G', 'E', 'Z', 'D', 'G', 'N', 'B', 'V', ' ', 'G', 'Y', '3', 'T', 'Q', 'O', 'J', 'Q', '\n',
        'G', 'E', 'Z', 'D', 'G', 'N', 'B', 'V', '\r', 'G', 'Y', '3', 'T', 'Q', 'O', 'J', 'Q']
    repeat
      first
      | exact Inserted.nil
      | apply Inserted.keep
      | refine Inserted.ins _ (by unfold IsIgnoredWhitespace; decide) ?_
  exact ⟨hi, fun upperTable now => GenerateCode_insert_whitespace upperTable now _ _ hi⟩

set_option maxRecDepth 100000 in
/-- C6 (counterexample): a tab inserted into the RFC test secret turns a valid
secret into an invalid one, so tabs are not removed. -/
theorem GenerateCode_tab_not_removed :
    Inserted IsWhitespace "GEZDGNBVGY3TQOJQGEZDGNBVGY3TQOJQ".data
        "GEZDGNBV\tGY3TQOJQGEZDGNBVGY3TQOJQ".data ∧
      GenerateCode (fun c => c) 59 "GEZDGNBVGY3TQOJQGEZDGNBVGY3TQOJQ" =
        some ("287082", none) ∧
      GenerateCode (fun c => c) 59 "GEZDGNBV\tGY3TQOJQGEZDGNBVGY3TQOJQ" =
        some ("", some (.invalidSecretFormat ⟨8⟩)) ∧
      GenerateCode (fun c => c) 59 "GEZDGNBV\tGY3TQOJQGEZDGNBVGY3TQOJQ" ≠
        GenerateCode (fun c => c) 59 "GEZDGNBVGY3TQOJQGEZDGNBVGY3TQOJQ" := by
  have hi : Inserted IsWhitespace "GEZDGNBVGY3TQOJQGEZDGNBVGY3TQOJQ".data
      "GEZDGNBV\tGY3TQOJQGEZDGNBVGY3TQOJQ".data := by
    show Inserted IsWhitespace
      ['G', 'E', 'Z', 'D', 'G', 'N', 'B', 'V', 'G', 'Y', '3', 'T', 'Q', 'O', 'J', 'Q',
        'G', 'E', 'Z', 'D', 'G', 'N', 'B', 'V', 'G', 'Y', '3', 'T', 'Q', 'O', 'J', 'Q']
      ['G', 'E', 'Z', 'D', 'G', 'N', 'B', 'V', '\t', 'G', 'Y', '3', 'T', 'Q', 'O', 'J', 'Q',
        'G', 'E', 'Z', 'D', 'G', 'N', 'B', 'V', 'G', 'Y', '3', 'T', 'Q', 'O', 'J', 'Q']
    repeat
      first
      | exact Inserted.nil
      | apply Inserted.keep
      | refine Inserted.ins _ (by unfold IsWhitespace; decide) ?_
  have h1 : GenerateCode (fun c => c) 59 "GEZDGNBVGY3TQOJQGEZDGNBVGY3TQOJQ" =
      some ("287082", none) := by decide
  have h2 : GenerateCode (fun c => c) 59 "GEZDGNBV\tGY3TQOJQGEZDGNBVGY3TQOJQ" =
      some ("", some (.invalidSecretFormat ⟨8⟩)) := by decide
  refine ⟨hi, h1, h2, ?_⟩
  rw [h1, h2]
  decide

/-! ## Determinism -/

/-- Readings that are not negative and have the same floor quotient by 30 have
the same time step. -/
theorem timeStep_eq_of_floor_eq (now1 now2 : Int) (h1 : 0 ≤ now1) (h2 : 0 ≤ now2)
    (h : now1 / 30 = now2 / 30) : timeStep now1 = timeStep now2 := by
  unfold timeStep
  rw [Int.tdiv_eq_ediv h1 (by decide), Int.tdiv_eq_ediv h2 (by decide), h]

/-- The floor of `n / 30` over the rationals is the integer quotient. -/
theorem floor_div_thirty (n : Int) : ⌊(n : ℚ) / 30⌋ = n / 30 := by
  have := Rat.floor_intCast_div_natCast n 30
  simpa using this

/-- The result of `GenerateCode` depends on the clock reading only through the
quotient the code computes. -/
theorem GenerateCode_of_timeStep_eq (upperTable : Char → Char) (secret : String)
    (now1 now2 : Int) (h : timeStep now1 = timeStep now2) :
    GenerateCode upperTable now1 secret = GenerateCode upperTable now2 secret := by
  rw [GenerateCode_eq, GenerateCode_eq, h]

/-- Every call of `GenerateCode` returns: either the error with the empty code,
or a code of six digits with no error. -/
theorem GenerateCode_total (upperTable : Char → Char) (now : Int) (secret : String) :
    (∃ cause, GenerateCode upperTable now secret =
        some ("", some (.invalidSecretFormat cause))) ∨
      ∃ code, GenerateCode upperTable now secret = some (code, none) ∧
        code.length = 6 ∧ ∀ c ∈ code.data, c.isDigit = true := by
  rcases GenerateCode_cases upperTable now secret with ⟨err, -, hg⟩ | ⟨bytes, c, -, hgen, hg⟩
  · exact Or.inl ⟨err, hg⟩
  · right
    obtain ⟨b0, b1, b2, b3, -, -, -, -, hb⟩ := generateTOTP_eq bytes (timeStep now)
    rw [hb] at hgen
    simp only [Option.some.injEq] at hgen
    subst hgen
    have hs := sprintf06d_spec ((beUint32 b0 b1 b2 b3 &&& 0x7fffffff) % 1000000)
      (Nat.mod_lt _ (by decide))
    exact ⟨_, hg, hs.1, hs.2.1⟩

/-- C7 (as amended): for every secret and any two Unix times that are not
negative and lie in the same 30-second step, `floor(now1/30) = floor(now2/30)`,
`GenerateCode` returns the same result, and that result is either the
invalid-secret-format error with the empty code or a string of six digits. -/
theorem GenerateCode_same_step (upperTable : Char → Char) (secret : String) (now1 now2 : Int)
    (h1 : 0 ≤ now1) (h2 : 0 ≤ now2) (h : ⌊(now1 : ℚ) / 30⌋ = ⌊(now2 : ℚ) / 30⌋) :
    GenerateCode upperTable now1 secret = GenerateCode upperTable now2 secret ∧
      ((∃ cause, GenerateCode upperTable now1 secret =
          some ("", some (.invalidSecretFormat cause))) ∨
        ∃ code, GenerateCode upperTable now1 secret = some (code, none) ∧
          code.length = 6 ∧ ∀ c ∈ code.data, c.isDigit = true) := by
  rw [floor_div_thirty, floor_div_thirty] at h
  exact ⟨GenerateCode_of_timeStep_eq upperTable secret now1 now2
    (timeStep_eq_of_floor_eq now1 now2 h1 h2 h), GenerateCode_total upperTable now1 secret⟩

/-- Witness of C7: the readings 60 and 89 lie in step 2. -/
theorem GenerateCode_same_step_witness :
    ⌊((60 : Int) : ℚ) / 30⌋ = ⌊((89 : Int) : ℚ) / 30⌋ ∧
      GenerateCode (fun c => c) 60 "GEZDGNBVGY3TQOJQGEZDGNBVGY3TQOJQ" =
        GenerateCode (fun c => c) 89 "GEZDGNBVGY3TQOJQGEZDGNBVGY3TQOJQ" := by
  have hf : ⌊((60 : Int) : ℚ) / 30⌋ = ⌊((89 : Int) : ℚ) / 30⌋ := by
    rw [floor_div_thirty, floor_div_thirty]
    decide
  exact ⟨hf, (GenerateCode_same_step (fun c => c) "GEZDGNBVGY3TQOJQGEZDGNBVGY3TQOJQ" 60 89
    (by decide) (by decide) hf).1⟩

set_option maxRecDepth 100000 in
/-- C7 (counterexample): the Unix times -30 and -1 lie in the same 30-second
step, the step -1, yet with the RFC test secret `GenerateCode` returns `094451`
at -30 and `755224` at -1. -/
theorem GenerateCode_same_floor_step_differs :
    ⌊((-30 : Int) : ℚ) / 30⌋ = ⌊((-1 : Int) : ℚ) / 30⌋ ∧
      GenerateCode (fun c => c) (-30) "GEZDGNBVGY3TQOJQGEZDGNBVGY3TQOJQ" =
        some ("094451", none) ∧
      GenerateCode (fun c => c) (-1) "GEZDGNBVGY3TQOJQGEZDGNBVGY3TQOJQ" =
        some ("755224", none) ∧
      GenerateCode (fun c => c) (-30) "GEZDGNBVGY3TQOJQGEZDGNBVGY3TQOJQ" ≠
        GenerateCode (fun c => c) (-1) "GEZDGNBVGY3TQOJQGEZDGNBVGY3TQOJQ" := by
  have hf : ⌊((-30 : Int) : ℚ) / 30⌋ = ⌊((-1 : Int) : ℚ) / 30⌋ := by
    rw [floor_div_thirty, floor_div_thirty]
    decide
  have ha : GenerateCode (fun c => c) (-30) "GEZDGNBVGY3TQOJQGEZDGNBVGY3TQOJQ" =
      some ("094451", none) := by decide
  have hb : GenerateCode (fun c => c) (-1) "GEZDGNBVGY3TQOJQGEZDGNBVGY3TQOJQ" =
      some ("755224", none) := by decide
  refine ⟨hf, ha, hb, ?_⟩
  rw [ha, hb]
  decide

/-! ## The time step -/

/-- The truncated quotient in terms of the floor quotient. -/
theorem timeStep_eq (now : Int) :
    timeStep now = if 0 ≤ now then now / 30 else -((-now) / 30) := by
  unfold timeStep
  split
  · rename_i h
    exact Int.tdiv_eq_ediv h (by decide)
  · rename_i h
    have h2 : (-now).tdiv 30 = (-now) / 30 := Int.tdiv_eq_ediv (by omega) (by decide)
    rw [← h2, Int.neg_tdiv, Int.neg_neg]

/-! ## The polling loop -/

theorem iteration_eq (upperTable : Char → Char) (secret : String) (lastInterval : Int)
    (clk : Clock) :
    iteration upperTable secret lastInterval clk =
      if timeStep clk.now > lastInterval then
        match GenerateCode upperTable clk.genNow secret with
        | none => (lastInterval, .panicked, [.invoked (timeStep clk.now)])
        | some (_, some err) =>
          (lastInterval, .exited, [.invoked (timeStep clk.now), .fatal err])
        | some (code, none) =>
          (timeStep clk.now, .running,
            [.invoked (timeStep clk.now),
              .report clk.now code
                (wrapInt64 (wrapInt64 ((timeStep clk.now + 1) * 30) - clk.now))])
      else (lastInterval, .running, []) := rfl

/-- The outcomes of one iteration. -/
theorem iteration_cases (upperTable : Char → Char) (secret : String) (lastInterval : Int)
    (clk : Clock) :
    (¬ timeStep clk.now > lastInterval ∧
        iteration upperTable secret lastInterval clk = (lastInterval, .running, [])) ∨
      (timeStep clk.now > lastInterval ∧ ∃ ctl, ctl ≠ Control.running ∧
        ∃ evs, reportTimes evs = [] ∧ invokedIntervals evs = [timeStep clk.now] ∧
        iteration upperTable secret lastInterval clk = (lastInterval, ctl, evs)) ∨
      (timeStep clk.now > lastInterval ∧ ∃ code,
        GenerateCode upperTable clk.genNow secret = some (code, none) ∧
        iteration upperTable secret lastInterval clk =
          (timeStep clk.now, .running,
            [.invoked (timeStep clk.now),
              .report clk.now code
                (wrapInt64 (wrapInt64 ((timeStep clk.now + 1) * 30) - clk.now))])) := by
  rw [iteration_eq]
  by_cases hadv : timeStep clk.now > lastInterval
  · rw [if_pos hadv]
    right
    rcases GenerateCode_cases upperTable clk.genNow secret with
      ⟨err, -, hg⟩ | ⟨bytes, code, -, -, hg⟩
    · left
      rw [hg]
      exact ⟨hadv, .exited, by decide,
        [.invoked (timeStep clk.now), .fatal (.invalidSecretFormat err)], rfl, rfl, rfl⟩
    · right
      rw [hg]
      exact ⟨hadv, code, rfl, rfl⟩
  · rw [if_neg hadv]
    exact Or.inl ⟨hadv, rfl⟩

theorem runLoop_cons (upperTable : Char → Char) (secret : String) (lastInterval : Int)
    (clk : Clock) (rest : List Clock) :
    runLoop upperTable secret lastInterval (clk :: rest) =
      match iteration upperTable secret lastInterval clk with
      | (last, .running, evs) =>
        ((runLoop upperTable secret last rest).1, (runLoop upperTable secret last rest).2.1,
          evs ++ (runLoop upperTable secret last rest).2.2)
      | r => r := rfl

theorem invokedIntervals_append (a b : List Event) :
    invokedIntervals (a ++ b) = invokedIntervals a ++ invokedIntervals b := by
  induction a with
  | nil => rfl
  | cons e a ih => cases e <;> simp [invokedIntervals, ih]

theorem reportTimes_append (a b : List Event) :
    reportTimes (a ++ b) = reportTimes a ++ reportTimes b := by
  induction a with
  | nil => rfl
  | cons e a ih => cases e <;> simp [reportTimes, ih]

/-- Along a run the intervals of the calls of `GenerateCode` and the steps of
the reports increase strictly and lie above the initial `lastInterval`. -/
theorem runLoop_increasing (upperTable : Char → Char) (secret : String) (clocks : List Clock) :
    ∀ last : Int,
      (∀ i ∈ invokedIntervals (runLoop upperTable secret last clocks).2.2, last < i) ∧
      (invokedIntervals (runLoop upperTable secret last clocks).2.2).Pairwise (· < ·) ∧
      (∀ t ∈ reportTimes (runLoop upperTable secret last clocks).2.2, last < timeStep t) ∧
      ((reportTimes (runLoop upperTable secret last clocks).2.2).map timeStep).Pairwise
        (· < ·) := by
  induction clocks with
  | nil =>
    intro last
    simp [runLoop, invokedIntervals, reportTimes]
  | cons clk rest ih =>
    intro last
    rw [runLoop_cons]
    rcases iteration_cases upperTable secret last clk with
      ⟨-, hit⟩ | ⟨hadv, ctl, hctl, evs, hrep, hinv, hit⟩ | ⟨hadv, code, -, hit⟩
    · rw [hit]
      simpa using ih last
    · rw [hit]
      cases ctl with
      | running => exact absurd rfl hctl
      | exited => simp [hrep, hinv]; exact hadv
      | panicked => simp [hrep, hinv]; exact hadv
    · rw [hit]
      obtain ⟨h1, h2, h3, h4⟩ := ih (timeStep clk.now)
      simp only [invokedIntervals_append, reportTimes_append, invokedIntervals, reportTimes,
        List.cons_append, List.nil_append, List.mem_cons, List.map_cons, List.pairwise_cons,
        forall_eq_or_imp]
      refine ⟨⟨hadv, fun i hi => lt_trans hadv (h1 i hi)⟩, ⟨h1, h2⟩,
        ⟨hadv, fun t ht => lt_trans hadv (h3 t ht)⟩, ⟨?_, h4⟩⟩
      intro s hs
      obtain ⟨t, ht, rfl⟩ := List.mem_map.mp hs
      exact h3 t ht

/-- Two readings whose truncated steps are non-negative and increase have
increasing floor steps. -/
theorem floor_lt_of_timeStep_lt (a b : Int) (ha : -1 < timeStep a) (hab : timeStep a < timeStep b) :
    a / 30 < b / 30 := by
  rw [timeStep_eq] at ha hab
  rw [timeStep_eq] at hab
  split at ha <;> split at hab <;> omega

theorem pairwise_lt_nodup (l : List Int) (h : l.Pairwise (· < ·)) : l.Nodup :=
  h.imp (fun hab => ne_of_lt hab)

/-- Counted by the clock reading of the loop (line 70): in every run of the loop
of `main`, for any clock readings and any secret, the intervals in which
`GenerateCode` is called increase strictly, and so do the steps of the clock
readings of the reports (truncated or floor quotient).  From any state, two
consecutive iterations whose clock readings lie in the same step make at most
one report and at most one call. -/
theorem mainLoop_dedup (upperTable : Char → Char) (secret : String) (clocks : List Clock) :
    (invokedIntervals (mainLoop upperTable secret clocks).2.2).Pairwise (· < ·) ∧
      ((reportTimes (mainLoop upperTable secret clocks).2.2).map timeStep).Pairwise (· < ·) ∧
      ((reportTimes (mainLoop upperTable secret clocks).2.2).map (fun t => t / 30)).Pairwise
        (· < ·) ∧
      (invokedIntervals (mainLoop upperTable secret clocks).2.2).Nodup ∧
      ((reportTimes (mainLoop upperTable secret clocks).2.2).map timeStep).Nodup ∧
      ((reportTimes (mainLoop upperTable secret clocks).2.2).map (fun t => t / 30)).Nodup ∧
      ∀ (last : Int) (c1 c2 : Clock), timeStep c1.now = timeStep c2.now →
        (reportTimes (runLoop upperTable secret last [c1, c2]).2.2).length ≤ 1 ∧
        (invokedIntervals (runLoop upperTable secret last [c1, c2]).2.2).length ≤ 1 := by
  obtain ⟨-, h2, h3, h4⟩ := runLoop_increasing upperTable secret clocks (-1)
  have h5 : ((reportTimes (mainLoop upperTable secret clocks).2.2).map
      (fun t => t / 30)).Pairwise (· < ·) := by
    unfold mainLoop
    rw [List.pairwise_map] at h4 ⊢
    have h4' : (reportTimes (runLoop upperTable secret (-1) clocks).2.2).Pairwise
        (fun a b => -1 < timeStep a ∧ timeStep a < timeStep b) := by
      refine List.Pairwise.imp_of_mem ?_ h4
      intro a b ha _ hab
      exact ⟨h3 a ha, hab⟩
    exact h4'.imp (fun hab => floor_lt_of_timeStep_lt _ _ hab.1 hab.2)
  refine ⟨h2, h4, h5, pairwise_lt_nodup _ h2, pairwise_lt_nodup _ h4, pairwise_lt_nodup _ h5, ?_⟩
  intro last c1 c2 hsame
  rw [runLoop_cons]
  rcases iteration_cases upperTable secret last c1 with
    ⟨hno, hit⟩ | ⟨hadv, ctl, hctl, evs, hrep, hinv, hit⟩ | ⟨hadv, code, -, hit⟩
  · rw [hit]
    simp only [List.nil_append]
    rw [runLoop_cons]
    rcases iteration_cases upperTable secret last c2 with
      ⟨-, hit2⟩ | ⟨hadv2, -⟩ | ⟨hadv2, -⟩
    · rw [hit2]
      simp [runLoop, reportTimes, invokedIntervals]
    · exact absurd (hsame ▸ hadv2) hno
    · exact absurd (hsame ▸ hadv2) hno
  · rw [hit]
    cases ctl with
    | running => exact absurd rfl hctl
    | exited => simp [hrep, hinv]
    | panicked => simp [hrep, hinv]
  · rw [hit]
    simp only []
    rw [runLoop_cons]
    rcases iteration_cases upperTable secret (timeStep c1.now) c2 with
      ⟨-, hit2⟩ | ⟨hadv2, -⟩ | ⟨hadv2, -⟩
    · rw [hit2]
      simp [runLoop, reportTimes, invokedIntervals]
    · rw [hsame] at hadv2; exact absurd hadv2 (lt_irrefl _)
    · rw [hsame] at hadv2; exact absurd hadv2 (lt_irrefl _)

/-- C9: when an iteration whose clock reading `now` is not negative makes a
report, the report carries `now` and the reported validity is
`(step + 1) * 30 - now = 30 - now mod 30`, between 1 and 30; five seconds into a
step it is 25. -/
theorem iteration_validFor (upperTable : Char → Char) (secret : String) (last : Int)
    (clk : Clock) (t : Int) (code : String) (validFor : Int)
    (h0 : 0 ≤ clk.now)
    (hrep : Event.report t code validFor ∈ (iteration upperTable secret last clk).2.2) :
    t = clk.now ∧ validFor = (timeStep clk.now + 1) * 30 - clk.now ∧
      validFor = 30 - clk.now % 30 ∧ 1 ≤ validFor ∧ validFor ≤ 30 ∧
      ∀ stepStart : Int, 0 ≤ stepStart → stepStart % 30 = 0 → clk.now = stepStart + 5 →
        validFor = 25 := by
  have hv : wrapInt64 (wrapInt64 ((timeStep clk.now + 1) * 30) - clk.now) =
      30 - clk.now % 30 := by
    rw [timeStep_eq, if_pos h0]
    unfold wrapInt64
    omega
  have hs : (timeStep clk.now + 1) * 30 - clk.now = 30 - clk.now % 30 := by
    rw [timeStep_eq, if_pos h0]
    omega
  rcases iteration_cases upperTable secret last clk with
    ⟨-, hit⟩ | ⟨-, ctl, -, evs, hr, -, hit⟩ | ⟨-, c, -, hit⟩
  · rw [hit] at hrep
    simp at hrep
  · rw [hit] at hrep
    have : t ∈ reportTimes evs := by
      clear hit hr
      induction evs with
      | nil => simp at hrep
      | cons e evs ih =>
        rcases List.mem_cons.mp hrep with h | h
        · subst h; simp [reportTimes]
        · cases e <;> simp [reportTimes, ih h]
    rw [hr] at this
    simp at this
  · rw [hit] at hrep
    simp only [List.mem_cons, Event.report.injEq, List.mem_singleton, reduceCtorEq, false_or,
      List.not_mem_nil, or_false] at hrep
    obtain ⟨ht, -, hvf⟩ := hrep
    rw [hv] at hvf
    refine ⟨ht, by rw [hs, hvf], hvf, by omega, by omega, ?_⟩
    intro stepStart _ hmod hnow
    omega

set_option maxRecDepth 100000 in
/-- Witness of C9: the iteration at the clock reading 65, five seconds into
step 2, reports the code of the RFC test secret with a validity of 25. -/
theorem iteration_validFor_witness :
    Event.report 65 "359152" 25 ∈
        (iteration (fun c => c) "GEZDGNBVGY3TQOJQGEZDGNBVGY3TQOJQ" (-1) ⟨65, 65⟩).2.2 ∧
      (25 : Int) = 30 - 65 % 30 :=
  ⟨by decide,
    (iteration_validFor (fun c => c) "GEZDGNBVGY3TQOJQGEZDGNBVGY3TQOJQ" (-1) ⟨65, 65⟩ 65
      "359152" 25 (by decide) (by decide)).2.2.1⟩

/-- C10 (counterexample): at the Unix time -1, inside the `int64` range, the
time step is 0 while the floor of -1/30 is -1. -/
theorem timeStep_not_floor :
    (-9223372036854775808 : Int) ≤ -1 ∧ (-1 : Int) < 9223372036854775808 ∧
      timeStep (-1) = 0 ∧ ⌊((-1 : Int) : ℚ) / 30⌋ = -1 ∧
      timeStep (-1) ≠ ⌊((-1 : Int) : ℚ) / 30⌋ := by
  have hf : ⌊((-1 : Int) : ℚ) / 30⌋ = -1 := by
    have := Rat.floor_intCast_div_natCast (-1) 30
    simpa using this
  refine ⟨by decide, by decide, by decide, hf, ?_⟩
  rw [hf]
  decide

/-- C10 (as amended): the time step of a Unix time `now` is the floor of
`now / 30` when `now` is not negative, and the quotient rounded toward zero,
`-floor(-now / 30)`, when it is negative. -/
theorem timeStep_floor (now : Int) :
    timeStep now =
      if 0 ≤ now then ⌊(now : ℚ) / 30⌋ else -⌊((-now : Int) : ℚ) / 30⌋ := by
  have hfl : ∀ n : Int, ⌊(n : ℚ) / 30⌋ = n / 30 := by
    intro n
    have := Rat.floor_intCast_div_natCast n 30
    simpa using this
  rw [hfl, hfl, timeStep_eq]

/-! ## The HMAC message -/

/-- The eight bytes of `PutUint64` are below 256 and their big-endian value is
the 64-bit value written. -/
theorem putUint64_value (v : Nat) (hv : v < 18446744073709551616) :
    ((v >>> 56) % 256) * 256 ^ 7 + ((v >>> 48) % 256) * 256 ^ 6 + ((v >>> 40) % 256) * 256 ^ 5 +
      ((v >>> 32) % 256) * 256 ^ 4 + ((v >>> 24) % 256) * 256 ^ 3 + ((v >>> 16) % 256) * 256 ^ 2 +
      ((v >>> 8) % 256) * 256 + v % 256 = v := by
  simp only [Nat.shiftRight_eq_div_pow]
  norm_num
  omega

theorem uint64_of_nonneg (T : Int) (h0 : 0 ≤ T) (h63 : T < 9223372036854775808) :
    ((uint64 T : Nat) : Int) = T ∧ uint64 T < 18446744073709551616 := by
  unfold uint64
  omega

/-- C11: for a time step `T` with `0 ≤ T < 2^63` the message `generateTOTP` passes
to HMAC consists of exactly eight bytes whose big-endian value
`b0*256^7 + ... + b7` is `T`, and two different such time steps give different
messages. -/
theorem generateTOTP_message (T T2 : Int) (h0 : 0 ≤ T) (h63 : T < 9223372036854775808)
    (h0' : 0 ≤ T2) (h63' : T2 < 9223372036854775808) :
    (∃ b0 b1 b2 b3 b4 b5 b6 b7 : Nat,
        putUint64 (uint64 T) = [b0, b1, b2, b3, b4, b5, b6, b7] ∧
        b0 < 256 ∧ b1 < 256 ∧ b2 < 256 ∧ b3 < 256 ∧ b4 < 256 ∧ b5 < 256 ∧ b6 < 256 ∧ b7 < 256 ∧
        ((b0 * 256 ^ 7 + b1 * 256 ^ 6 + b2 * 256 ^ 5 + b3 * 256 ^ 4 + b4 * 256 ^ 3 +
          b5 * 256 ^ 2 + b6 * 256 + b7 : Nat) : Int) = T ∧
        ∀ secret, generateTOTP secret T =
          truncateCode (hmacSha1 secret [b0, b1, b2, b3, b4, b5, b6, b7])) ∧
      (T ≠ T2 → putUint64 (uint64 T) ≠ putUint64 (uint64 T2)) := by
  obtain ⟨hT, hlt⟩ := uint64_of_nonneg T h0 h63
  obtain ⟨hT2, hlt2⟩ := uint64_of_nonneg T2 h0' h63'
  have hb : ∀ x : Nat, x % 256 < 256 := fun x => Nat.mod_lt _ (by decide)
  refine ⟨⟨_, _, _, _, _, _, _, _, rfl, hb _, hb _, hb _, hb _, hb _, hb _, hb _, hb _, ?_,
    fun secret => rfl⟩, ?_⟩
  · rw [putUint64_value _ hlt, hT]
  · intro hne heq
    apply hne
    have h1 := putUint64_value _ hlt
    have h2 := putUint64_value _ hlt2
    simp only [putUint64, List.cons.injEq, and_true] at heq
    obtain ⟨e0, e1, e2, e3, e4, e5, e6, e7⟩ := heq
    rw [e0, e1, e2, e3, e4, e5, e6, e7, h2] at h1
    rw [← hT, ← hT2, h1]

/-- Witness of C11: the steps 1 and 143165577, the latter of the Unix time
4294967310, beyond the year 2106. -/
theorem generateTOTP_message_witness :
    putUint64 (uint64 143165577) = [0, 0, 0, 0, 8, 136, 136, 137] ∧
      putUint64 (uint64 1) ≠ putUint64 (uint64 143165577) :=
  ⟨by decide,
    (generateTOTP_message 1 143165577 (by decide) (by decide) (by decide) (by decide)).2
      (by decide)⟩

/-! ## Monotonicity of the time step -/

/-- C16: the time step does not decrease when the Unix time increases. -/
theorem timeStep_mono (now1 now2 : Int) (h : now1 ≤ now2) : timeStep now1 ≤ timeStep now2 := by
  rw [timeStep_eq, timeStep_eq]
  split <;> split <;> omega

/-- Witness of C16: the times 59 and 60, on the two sides of a step boundary. -/
theorem timeStep_mono_witness : (59 : Int) ≤ 60 ∧ timeStep 59 ≤ timeStep 60 :=
  ⟨by decide, timeStep_mono 59 60 (by decide)⟩

/-! ## The truncation stays inside the digest -/

/-- C17: for every 20-byte digest the offset `digest[19] & 0xf` is at most 15,
the slice `digest[offset .. offset+4]` lies inside the digest and the truncation
yields a code; `generateTOTP` returns a code for every secret, the empty key
included, and every time step. -/
theorem truncateCode_in_bounds (digest : List Nat) (hlen : digest.length = 20) :
    (digest.getD 19 0 &&& 0xf) ≤ 15 ∧
      (digest.getD 19 0 &&& 0xf) + 4 ≤ digest.length ∧
      ((digest.drop (digest.getD 19 0 &&& 0xf)).take 4).length = 4 ∧
      (∃ code, truncateCode digest = some code) ∧
      (∀ secret interval, ∃ code, generateTOTP secret interval = some code) ∧
      ∀ interval, ∃ code, generateTOTP [] interval = some code := by
  have hoff : (digest.getD 19 0 &&& 0xf) ≤ 15 := Nat.and_le_right
  have hgen : ∀ secret interval, ∃ code, generateTOTP secret interval = some code := by
    intro secret interval
    obtain ⟨b0, b1, b2, b3, -, -, -, -, h⟩ := generateTOTP_eq secret interval
    exact ⟨_, h⟩
  obtain ⟨b0, b1, b2, b3, -, -, -, -, h⟩ := truncateCode_eq digest hlen
  refine ⟨hoff, by omega, ?_, ⟨_, h⟩, hgen, fun interval => hgen [] interval⟩
  rw [List.length_take, List.length_drop]
  omega

set_option maxRecDepth 100000 in
/-- Witness of C17: the HMAC-SHA1 digest of the empty key and the step 0, whose
last byte has the low nibble 7. -/
theorem truncateCode_in_bounds_witness :
    hmacSha1 [] (putUint64 (uint64 0)) =
        [218, 182, 154, 217, 142, 40, 118, 79, 151, 126, 226, 72, 126, 79, 63, 104, 115, 178,
          162, 151] ∧
      ((218 :: 182 :: 154 :: 217 :: 142 :: 40 :: 118 :: 79 :: 151 :: 126 :: 226 :: 72 :: 126 ::
        79 :: 63 :: 104 :: 115 :: 178 :: 162 :: [151]).getD 19 0 &&& 0xf) ≤ 15 :=
  ⟨by decide,
    (truncateCode_in_bounds
      [218, 182, 154, 217, 142, 40, 118, 79, 151, 126, 226, 72, 126, 79, 63, 104, 115, 178, 162,
        151]
      (by decide)).1⟩

/-! ## The code a report carries -/

/-- The code of a report is the code `GenerateCode` computes from the clock
reading it takes itself (line 18), not from the reading of the loop. -/
theorem iteration_report_code (upperTable : Char → Char) (secret : String) (last : Int)
    (clk : Clock) (t : Int) (code : String) (validFor : Int)
    (hrep : Event.report t code validFor ∈ (iteration upperTable secret last clk).2.2) :
    GenerateCode upperTable clk.genNow secret = some (code, none) := by
  rcases iteration_cases upperTable secret last clk with
    ⟨-, hit⟩ | ⟨-, ctl, -, evs, hr, -, hit⟩ | ⟨-, c, hg, hit⟩
  · rw [hit] at hrep
    simp at hrep
  · rw [hit] at hrep
    have : t ∈ reportTimes evs := by
      clear hit hr
      induction evs with
      | nil => simp at hrep
      | cons e evs ih =>
        rcases List.mem_cons.mp hrep with h | h
        · subst h; simp [reportTimes]
        · cases e <;> simp [reportTimes, ih h]
    rw [hr] at this
    simp at this
  · rw [hit] at hrep
    simp only [List.mem_cons, Event.report.injEq, List.mem_singleton, reduceCtorEq, false_or,
      List.not_mem_nil, or_false] at hrep
    rw [hrep.2.1]
    exact hg

/-- When the two clock readings of an iteration lie in the same step, the code
of a report is the code of the reading of the loop. -/
theorem iteration_report_code_same_step (upperTable : Char → Char) (secret : String)
    (last : Int) (clk : Clock) (t : Int) (code : String) (validFor : Int)
    (hstep : timeStep clk.genNow = timeStep clk.now)
    (hrep : Event.report t code validFor ∈ (iteration upperTable secret last clk).2.2) :
    GenerateCode upperTable clk.now secret = some (code, none) := by
  have h := iteration_report_code upperTable secret last clk t code validFor hrep
  rw [GenerateCode_eq] at h ⊢
  rw [← hstep]
  exact h

set_option maxRecDepth 100000 in
/-- C13 (the code at a failing input): with the RFC test secret, the loop reads
the clock at 59 (step 1) and `GenerateCode` reads it at 60 (step 2); the report
carries the time 59, the validity 1 and the code `359152` of step 2, while the
code of the reading 59 of the loop is `287082`; `lastInterval` becomes 1. -/
theorem iteration_reports_code_of_later_step :
    iteration (fun c => c) "GEZDGNBVGY3TQOJQGEZDGNBVGY3TQOJQ" (-1) ⟨59, 60⟩ =
        (1, .running, [.invoked 1, .report 59 "359152" 1]) ∧
      timeStep 59 = 1 ∧ timeStep 60 = 2 ∧
      GenerateCode (fun c => c) 59 "GEZDGNBVGY3TQOJQGEZDGNBVGY3TQOJQ" = some ("287082", none) ∧
      GenerateCode (fun c => c) 60 "GEZDGNBVGY3TQOJQGEZDGNBVGY3TQOJQ" = some ("359152", none) := by
  refine ⟨?_, ?_, ?_, ?_, ?_⟩ <;> decide

set_option maxRecDepth 100000 in
/-- C8 (the code at a failing input): with the RFC test secret, the first
iteration reads the clock at 59 and `GenerateCode` reads it at 60, the second
iteration reads 60 twice.  `GenerateCode` is called in both iterations and
computes the step 2 both times, and two reports are made that carry the same
code `359152` of step 2, the first with the validity 1 and the second with the
validity 30. -/
theorem mainLoop_same_step_reported_twice :
    mainLoop (fun c => c) "GEZDGNBVGY3TQOJQGEZDGNBVGY3TQOJQ" [⟨59, 60⟩, ⟨60, 60⟩] =
        (2, .running,
          [.invoked 1, .report 59 "359152" 1, .invoked 2, .report 60 "359152" 30]) ∧
      timeStep (Clock.genNow ⟨59, 60⟩) = 2 ∧ timeStep (Clock.genNow ⟨60, 60⟩) = 2 ∧
      GenerateCode (fun c => c) (Clock.genNow ⟨59, 60⟩) "GEZDGNBVGY3TQOJQGEZDGNBVGY3TQOJQ" =
        some ("359152", none) ∧
      GenerateCode (fun c => c) (Clock.genNow ⟨60, 60⟩) "GEZDGNBVGY3TQOJQGEZDGNBVGY3TQOJQ" =
        some ("359152", none) ∧
      generateTOTP
        [49, 50, 51, 52, 53, 54, 55, 56, 57, 48, 49, 50, 51, 52, 53, 54, 55, 56, 57, 48] 2 =
        some "359152" := by
  refine ⟨?_, ?_, ?_, ?_, ?_, ?_⟩ <;> decide

/-! ## A fatal error of the secret -/

theorem iteration_invalid (upperTable : Char → Char) (secret : String) (last : Int) (clk : Clock)
    (cause : CorruptInputError)
    (hbad : DecodeString (toUpper upperTable (removeSpaces secret)) = .corrupt cause) :
    iteration upperTable secret last clk =
      if timeStep clk.now > last then
        (last, .exited, [.invoked (timeStep clk.now), .fatal (.invalidSecretFormat cause)])
      else (last, .running, []) := by
  have hg : GenerateCode upperTable clk.genNow secret =
      some ("", some (.invalidSecretFormat cause)) := by
    rw [GenerateCode_eq, hbad]
  rw [iteration_eq, hg]

/-- C14: when the secret fails Base32 decoding, an iteration in which the step
has advanced makes no report, prints the error and exits: whatever clock
readings follow, the run ends there, with the error as its only event besides
the call of `GenerateCode`.  The same holds after any number of iterations in
which the step has not advanced, so a run with such a secret surfaces the
error once and makes no report. -/
theorem runLoop_fatal (upperTable : Char → Char) (secret : String) (cause : CorruptInputError)
    (last : Int) (clk : Clock) (rest : List Clock)
    (hbad : DecodeString (toUpper upperTable (removeSpaces secret)) = .corrupt cause)
    (hadv : timeStep clk.now > last) :
    iteration upperTable secret last clk =
        (last, .exited, [.invoked (timeStep clk.now), .fatal (.invalidSecretFormat cause)]) ∧
      runLoop upperTable secret last (clk :: rest) =
        (last, .exited, [.invoked (timeStep clk.now), .fatal (.invalidSecretFormat cause)]) ∧
      reportTimes (runLoop upperTable secret last (clk :: rest)).2.2 = [] ∧
      ∀ pre : List Clock, (∀ c ∈ pre, ¬ timeStep c.now > last) →
        runLoop upperTable secret last (pre ++ clk :: rest) =
          (last, .exited, [.invoked (timeStep clk.now), .fatal (.invalidSecretFormat cause)]) := by
  have hit : iteration upperTable secret last clk =
      (last, .exited, [.invoked (timeStep clk.now), .fatal (.invalidSecretFormat cause)]) := by
    rw [iteration_invalid upperTable secret last clk cause hbad, if_pos hadv]
  have hrun : runLoop upperTable secret last (clk :: rest) =
      (last, .exited, [.invoked (timeStep clk.now), .fatal (.invalidSecretFormat cause)]) := by
    rw [runLoop_cons, hit]
  refine ⟨hit, hrun, by rw [hrun]; rfl, ?_⟩
  intro pre hpre
  induction pre with
  | nil => exact hrun
  | cons c pre ih =>
    have hc : ¬ timeStep c.now > last := hpre c (List.mem_cons_self _ _)
    rw [List.cons_append, runLoop_cons,
      iteration_invalid upperTable secret last c cause hbad, if_neg hc]
    simp only [List.nil_append]
    rw [ih (fun d hd => hpre d (List.mem_cons_of_mem _ hd))]

/-- Witness of C14: the secret `not-base32!`, rejected at offset 3, at the clock
reading 59 followed by the reading 90. -/
theorem runLoop_fatal_witness :
    DecodeString (toUpper (fun c => c) (removeSpaces "not-base32!")) = .corrupt ⟨3⟩ ∧
      runLoop (fun c => c) "not-base32!" (-1) [⟨59, 59⟩, ⟨90, 90⟩] =
        (-1, .exited, [.invoked (timeStep 59), .fatal (.invalidSecretFormat ⟨3⟩)]) :=
  ⟨by rewrite [notBase32_normalized, notBase32_decoded]; exact Eq.refl _,
    (runLoop_fatal (fun c => c) "not-base32!" ⟨3⟩ (-1) ⟨59, 59⟩ [⟨90, 90⟩]
      (by rewrite [notBase32_normalized, notBase32_decoded]; exact Eq.refl _)
      (by decide)).2.1⟩

/-! ## One report for every advance of the step -/

theorem iteration_valid (upperTable : Char → Char) (secret : String) (bytes : List Nat)
    (hvalid : DecodeString (toUpper upperTable (removeSpaces secret)) = .ok bytes)
    (last : Int) (clk : Clock) :
    (timeStep clk.now > last ∧ ∃ code validFor,
        iteration upperTable secret last clk =
          (timeStep clk.now, .running,
            [.invoked (timeStep clk.now), .report clk.now code validFor])) ∨
      (¬ timeStep clk.now > last ∧
        iteration upperTable secret last clk = (last, .running, [])) := by
  rcases iteration_cases upperTable secret last clk with
    ⟨hno, hit⟩ | ⟨hadv, ctl, hctl, evs, -, -, hit⟩ | ⟨hadv, code, -, hit⟩
  · exact Or.inr ⟨hno, hit⟩
  · exfalso
    rcases GenerateCode_cases upperTable clk.genNow secret with
      ⟨err, hd, -⟩ | ⟨b, code, -, -, hg⟩
    · rw [hvalid] at hd
      exact DecodeResult.noConfusion hd
    · rw [iteration_eq, if_pos hadv, hg] at hit
      simp only [Prod.mk.injEq] at hit
      exact hctl hit.2.1.symm
  · exact Or.inl ⟨hadv, code, _, hit⟩

theorem runLoop_append (upperTable : Char → Char) (secret : String) (pre post : List Clock) :
    ∀ last : Int, (runLoop upperTable secret last pre).2.1 = .running →
      runLoop upperTable secret last (pre ++ post) =
        ((runLoop upperTable secret (runLoop upperTable secret last pre).1 post).1,
          (runLoop upperTable secret (runLoop upperTable secret last pre).1 post).2.1,
          (runLoop upperTable secret last pre).2.2 ++
            (runLoop upperTable secret (runLoop upperTable secret last pre).1 post).2.2) := by
  induction pre with
  | nil =>
    intro last _
    simp [runLoop]
  | cons c pre ih =>
    intro last hrun
    rw [List.cons_append, runLoop_cons]
    rw [runLoop_cons] at hrun ⊢
    rcases hc : iteration upperTable secret last c with ⟨l, ctl, evs⟩
    rw [hc] at hrun
    cases ctl with
    | running =>
      simp only [] at hrun ⊢
      rw [ih l hrun]
      simp only [List.append_assoc]
    | exited => simp at hrun
    | panicked => simp at hrun

/-- With a secret that decodes, a run never stops and `lastInterval` is the
greatest of its initial value and the steps of the clock readings. -/
theorem runLoop_valid (upperTable : Char → Char) (secret : String) (bytes : List Nat)
    (hvalid : DecodeString (toUpper upperTable (removeSpaces secret)) = .ok bytes)
    (clocks : List Clock) :
    ∀ last : Int, (runLoop upperTable secret last clocks).2.1 = .running ∧
      (runLoop upperTable secret last clocks).1 =
        (clocks.map (fun c => timeStep c.now)).foldl max last := by
  induction clocks with
  | nil =>
    intro last
    simp [runLoop]
  | cons c clocks ih =>
    intro last
    rw [runLoop_cons]
    rcases iteration_valid upperTable secret bytes hvalid last c with
      ⟨hadv, code, v, hit⟩ | ⟨hno, hit⟩
    · rw [hit]
      simp only [List.map_cons, List.foldl_cons]
      rw [max_eq_right (le_of_lt hadv)]
      exact ih _
    · rw [hit]
      simp only [List.map_cons, List.foldl_cons]
      rw [max_eq_left (not_lt.mp hno)]
      exact ih _

theorem lt_foldl_max_iff (steps : List Int) : ∀ (last x : Int),
    steps.foldl max last < x ↔ last < x ∧ ∀ s ∈ steps, s < x := by
  induction steps with
  | nil => intro last x; simp
  | cons s steps ih =>
    intro last x
    rw [List.foldl_cons, ih, max_lt_iff]
    simp only [List.mem_cons, forall_eq_or_imp]
    tauto

theorem foldl_max_mem (steps : List Int) : ∀ last : Int,
    steps.foldl max last = last ∨ steps.foldl max last ∈ steps := by
  induction steps with
  | nil => intro last; simp
  | cons s steps ih =>
    intro last
    rw [List.foldl_cons]
    rcases ih (max last s) with h | h
    · rw [h]
      rcases max_choice last s with hm | hm
      · exact Or.inl hm
      · exact Or.inr (by rw [hm]; exact List.mem_cons_self _ _)
    · exact Or.inr (List.mem_cons_of_mem _ h)

/-- C15 (as amended): with a secret that decodes, in a run entered with
`lastInterval = -1`, the iteration that follows the iterations `pre` makes a
report exactly when its step is greater than -1 and than the step of every
earlier iteration.  For a reading that is not negative this is: greater than
the step of every earlier iteration; the first iteration of a run whose
reading is not negative always reports; and the first iteration with a
reading that is not negative, after iterations with negative readings,
reports exactly when its reading is at least 30 or every earlier reading is at
most -30.  After the iterations `pre` the run is still going and
`lastInterval` is the greatest of -1 and the steps seen so far, which is the
greatest step seen so far when the readings are not negative; an iteration
that makes no report leaves `lastInterval` unchanged and has no event. -/
theorem mainLoop_report_iff (upperTable : Char → Char) (secret : String) (bytes : List Nat)
    (hvalid : DecodeString (toUpper upperTable (removeSpaces secret)) = .ok bytes)
    (pre : List Clock) (clk : Clock) :
    (mainLoop upperTable secret pre).2.1 = .running ∧
      (mainLoop upperTable secret pre).1 =
        (pre.map (fun c => timeStep c.now)).foldl max (-1) ∧
      mainLoop upperTable secret (pre ++ [clk]) =
        ((iteration upperTable secret (mainLoop upperTable secret pre).1 clk).1,
          (iteration upperTable secret (mainLoop upperTable secret pre).1 clk).2.1,
          (mainLoop upperTable secret pre).2.2 ++
            (iteration upperTable secret (mainLoop upperTable secret pre).1 clk).2.2) ∧
      ((∃ code validFor,
          (iteration upperTable secret (mainLoop upperTable secret pre).1 clk).2.2 =
            [.invoked (timeStep clk.now), .report clk.now code validFor]) ↔
        (-1 < timeStep clk.now ∧ ∀ c ∈ pre, timeStep c.now < timeStep clk.now)) ∧
      (0 ≤ clk.now →
        ((∃ code validFor,
          (iteration upperTable secret (mainLoop upperTable secret pre).1 clk).2.2 =
            [.invoked (timeStep clk.now), .report clk.now code validFor]) ↔
        ∀ c ∈ pre, timeStep c.now < timeStep clk.now)) ∧
      (¬ (-1 < timeStep clk.now ∧ ∀ c ∈ pre, timeStep c.now < timeStep clk.now) →
        iteration upperTable secret (mainLoop upperTable secret pre).1 clk =
          ((mainLoop upperTable secret pre).1, .running, [])) ∧
      (iteration upperTable secret (mainLoop upperTable secret pre).1 clk).1 =
        max (mainLoop upperTable secret pre).1 (timeStep clk.now) ∧
      ((∀ c ∈ pre, 0 ≤ c.now) → pre ≠ [] →
        (∀ c ∈ pre, timeStep c.now ≤ (mainLoop upperTable secret pre).1) ∧
        ∃ c ∈ pre, timeStep c.now = (mainLoop upperTable secret pre).1) ∧
      (pre = [] → 0 ≤ clk.now →
        ∃ code validFor,
          (iteration upperTable secret (mainLoop upperTable secret pre).1 clk).2.2 =
            [.invoked (timeStep clk.now), .report clk.now code validFor]) ∧
      (0 ≤ clk.now → (∀ c ∈ pre, c.now < 0) →
        ((∃ code validFor,
          (iteration upperTable secret (mainLoop upperTable secret pre).1 clk).2.2 =
            [.invoked (timeStep clk.now), .report clk.now code validFor]) ↔
        (30 ≤ clk.now ∨ ∀ c ∈ pre, c.now ≤ -30))) := by
  obtain ⟨hrun, hlast⟩ := runLoop_valid upperTable secret bytes hvalid pre (-1)
  have hadv_iff : timeStep clk.now > (mainLoop upperTable secret pre).1 ↔
      (-1 < timeStep clk.now ∧ ∀ c ∈ pre, timeStep c.now < timeStep clk.now) := by
    unfold mainLoop
    rw [hlast, gt_iff_lt, lt_foldl_max_iff]
    simp only [List.mem_map, forall_exists_index, and_imp, forall_apply_eq_imp_iff₂]
  have hemit : (∃ code validFor,
      (iteration upperTable secret (mainLoop upperTable secret pre).1 clk).2.2 =
        [.invoked (timeStep clk.now), .report clk.now code validFor]) ↔
      (-1 < timeStep clk.now ∧ ∀ c ∈ pre, timeStep c.now < timeStep clk.now) := by
    rw [← hadv_iff]
    rcases iteration_valid upperTable secret bytes hvalid (mainLoop upperTable secret pre).1 clk
      with ⟨hadv, code, v, hit⟩ | ⟨hno, hit⟩
    · rw [hit]
      exact ⟨fun _ => hadv, fun _ => ⟨code, v, rfl⟩⟩
    · rw [hit]
      constructor
      · rintro ⟨code, v, h⟩
        exact absurd h (by simp)
      · intro h
        exact absurd h hno
  have hstep0 : ∀ t : Int, 0 ≤ t → -1 < timeStep t := by
    intro t h0
    rw [timeStep_eq, if_pos h0]
    omega
  refine ⟨hrun, hlast, ?_, hemit, ?_, ?_, ?_, ?_, ?_, ?_⟩
  · unfold mainLoop
    rw [runLoop_append upperTable secret pre [clk] (-1) hrun, runLoop_cons]
    rcases hc : iteration upperTable secret (runLoop upperTable secret (-1) pre).1 clk with
      ⟨l, ctl, evs⟩
    cases ctl <;> simp [runLoop]
  · intro h0
    rw [hemit]
    exact ⟨fun h => h.2, fun h => ⟨hstep0 _ h0, h⟩⟩
  · intro hno
    rcases iteration_valid upperTable secret bytes hvalid (mainLoop upperTable secret pre).1 clk
      with ⟨hadv, -⟩ | ⟨-, hit⟩
    · exact absurd (hadv_iff.mp hadv) hno
    · exact hit
  · rcases iteration_valid upperTable secret bytes hvalid (mainLoop upperTable secret pre).1 clk
      with ⟨hadv, code, v, hit⟩ | ⟨hno, hit⟩
    · rw [hit, max_eq_right (le_of_lt hadv)]
    · rw [hit, max_eq_left (not_lt.mp hno)]
  · intro hpos hne
    unfold mainLoop
    rw [hlast]
    have hle : ∀ c ∈ pre, timeStep c.now ≤
        (pre.map (fun c => timeStep c.now)).foldl max (-1) := by
      intro c hc
      by_contra hlt
      have := (lt_foldl_max_iff (pre.map (fun c => timeStep c.now)) (-1) (timeStep c.now)).mp
        (not_le.mp hlt)
      exact absurd (this.2 _ (List.mem_map.mpr ⟨c, hc, rfl⟩)) (lt_irrefl _)
    refine ⟨hle, ?_⟩
    rcases foldl_max_mem (pre.map (fun c => timeStep c.now)) (-1) with h | h
    · exfalso
      obtain ⟨c, hc⟩ := List.exists_mem_of_ne_nil pre hne
      have h1 := hle c hc
      have h2 := hstep0 _ (hpos c hc)
      rw [h] at h1
      omega
    · obtain ⟨c, hc, heq⟩ := List.mem_map.mp h
      exact ⟨c, hc, heq⟩
  · intro hnil h0
    rw [hemit]
    subst hnil
    exact ⟨hstep0 _ h0, fun c hc => absurd hc (List.not_mem_nil c)⟩
  · intro h0 hneg
    rw [hemit]
    have hclk : timeStep clk.now = clk.now / 30 := by rw [timeStep_eq, if_pos h0]
    have hpre : ∀ c ∈ pre, timeStep c.now = -((-c.now) / 30) := by
      intro c hc
      rw [timeStep_eq, if_neg (by have := hneg c hc; omega)]
    constructor
    · rintro ⟨-, hall⟩
      by_cases h30 : 30 ≤ clk.now
      · exact Or.inl h30
      · right
        intro c hc
        have h1 := hall c hc
        have h2 := hneg c hc
        rw [hclk, hpre c hc] at h1
        omega
    · intro h
      refine ⟨hstep0 _ h0, ?_⟩
      intro c hc
      have h2 := hneg c hc
      rw [hclk, hpre c hc]
      rcases h with h | h
      · omega
      · have h3 := h c hc
        omega

/-- Witness of C15: the RFC test secret decodes, and the run over the clock
reading 59 is still going. -/
theorem mainLoop_report_iff_witness :
    DecodeString (toUpper (fun c => c) (removeSpaces "GEZDGNBVGY3TQOJQGEZDGNBVGY3TQOJQ")) =
        .ok [49, 50, 51, 52, 53, 54, 55, 56, 57, 48, 49, 50, 51, 52, 53, 54, 55, 56, 57, 48] ∧
      (mainLoop (fun c => c) "GEZDGNBVGY3TQOJQGEZDGNBVGY3TQOJQ" [⟨59, 59⟩]).2.1 = .running ∧
      (mainLoop (fun c => c) "GEZDGNBVGY3TQOJQGEZDGNBVGY3TQOJQ" [⟨59, 59⟩]).1 =
        ([(⟨59, 59⟩ : Clock)].map (fun c => timeStep c.now)).foldl max (-1) := by
  have hv : DecodeString
      (toUpper (fun c => c) (removeSpaces "GEZDGNBVGY3TQOJQGEZDGNBVGY3TQOJQ")) =
      .ok [49, 50, 51, 52, 53, 54, 55, 56, 57, 48, 49, 50, 51, 52, 53, 54, 55, 56, 57, 48] := by
    rewrite [rfcSecret_normalized, rfcSecret_decoded]
    exact Eq.refl _
  have h := mainLoop_report_iff (fun c => c) "GEZDGNBVGY3TQOJQGEZDGNBVGY3TQOJQ" _ hv
    [⟨59, 59⟩] ⟨65, 65⟩
  exact ⟨hv, h.1, h.2.1⟩

set_option maxRecDepth 100000 in
/-- C15 (counterexample): with the RFC test secret, a first iteration at the
Unix time -60 has the step -2 and no iteration before it, yet it makes no
report, and `lastInterval` stays -1, which is not the greatest step seen.  In
the run over the readings -1 and 0 the first iteration with a reading that is
not negative, the one at 0, makes no report: the only report is that of the
reading -1, whose step is 0. -/
theorem mainLoop_negative_first_reading :
    DecodeString (toUpper (fun c => c) (removeSpaces "GEZDGNBVGY3TQOJQGEZDGNBVGY3TQOJQ")) =
        .ok [49, 50, 51, 52, 53, 54, 55, 56, 57, 48, 49, 50, 51, 52, 53, 54, 55, 56, 57, 48] ∧
      timeStep (-60) = -2 ∧
      mainLoop (fun c => c) "GEZDGNBVGY3TQOJQGEZDGNBVGY3TQOJQ" [⟨-60, -60⟩] =
        (-1, .running, []) ∧
      (mainLoop (fun c => c) "GEZDGNBVGY3TQOJQGEZDGNBVGY3TQOJQ" [⟨-60, -60⟩]).1 ≠
        timeStep (-60) ∧
      mainLoop (fun c => c) "GEZDGNBVGY3TQOJQGEZDGNBVGY3TQOJQ" [⟨-1, -1⟩, ⟨0, 0⟩] =
        (0, .running, [.invoked 0, .report (-1) "755224" 31]) ∧
      iteration (fun c => c) "GEZDGNBVGY3TQOJQGEZDGNBVGY3TQOJQ"
        (mainLoop (fun c => c) "GEZDGNBVGY3TQOJQGEZDGNBVGY3TQOJQ" [⟨-1, -1⟩]).1 ⟨0, 0⟩ =
        (0, .running, []) := by
  refine ⟨?_, by decide, by decide, by decide, by decide, by decide⟩
  rewrite [rfcSecret_normalized, rfcSecret_decoded]
  exact Eq.refl _

/-! ## The Base32 round trip -/

/-- The encoder on the examples of RFC 4648, section 10, and on the RFC 6238
test secret. -/
theorem encodeToString_vectors :
    [EncodeToString (utf8Bytes ""), EncodeToString (utf8Bytes "f"),
        EncodeToString (utf8Bytes "fo"), EncodeToString (utf8Bytes "foo"),
        EncodeToString (utf8Bytes "foob"), EncodeToString (utf8Bytes "fooba"),
        EncodeToString (utf8Bytes "foobar"), EncodeToString (utf8Bytes "12345678901234567890")] =
      ["", "MY======", "MZXQ====", "MZXW6===", "MZXW6YQ=", "MZXW6YTB", "MZXW6YTBOI======",
        "GEZDGNBVGY3TQOJQGEZDGNBVGY3TQOJQ"] := by
  decide

theorem base32Char_toNat (v : Nat) (hv : v < 32) :
    (base32Char v).toNat = if v < 26 then 65 + v else 24 + v := by
  interval_cases v <;> rfl

theorem base32Char_normal (upperTable : Char → Char) (v : Nat) (hv : v < 32) :
    (base32Char v != ' ') = true ∧ toUpperRune upperTable (base32Char v) = base32Char v ∧
      utf8EncodeRune (base32Char v) = [(base32Char v).toNat] := by
  interval_cases v <;> exact ⟨rfl, rfl, rfl⟩

theorem base32Char_decode (v : Nat) (hv : v < 32) :
    decodeMap (base32Char v).toNat = v ∧ (base32Char v).toNat ≠ 61 ∧
      (base32Char v).toNat ≠ 13 ∧ (base32Char v).toNat ≠ 10 := by
  interval_cases v <;> decide

/-- A character of Base32 text: a character of the alphabet or the padding. -/
theorem encodeBase32_chars (k : List Nat) (hk : ∀ b ∈ k, b < 256) :
    ∀ c ∈ encodeBase32 k, c = '=' ∨ ∃ v, v < 32 ∧ c = base32Char v := by
  induction k using encodeBase32.induct with
  | case1 => simp [encodeBase32]
  | case2 a =>
    have ha := hk a (by simp)
    intro c hc
    simp only [encodeBase32, List.mem_cons, List.mem_singleton, List.not_mem_nil, or_false]
      at hc
    rcases hc with h | h | h | h | h | h | h | h
    · exact Or.inr ⟨_, by omega, h⟩
    · exact Or.inr ⟨_, by omega, h⟩
    all_goals exact Or.inl h
  | case3 a b =>
    have ha := hk a (by simp)
    have hb := hk b (by simp)
    intro c hc
    simp only [encodeBase32, List.mem_cons, List.mem_singleton, List.not_mem_nil, or_false]
      at hc
    rcases hc with h | h | h | h | h | h | h | h
    · exact Or.inr ⟨_, by omega, h⟩
    · exact Or.inr ⟨_, by omega, h⟩
    · exact Or.inr ⟨_, by omega, h⟩
    · exact Or.inr ⟨_, by omega, h⟩
    all_goals exact Or.inl h
  | case4 a b c' =>
    have ha := hk a (by simp)
    have hb := hk b (by simp)
    have hc' := hk c' (by simp)
    intro c hc
    simp only [encodeBase32, List.mem_cons, List.mem_singleton, List.not_mem_nil, or_false]
      at hc
    rcases hc with h | h | h | h | h | h | h | h
    · exact Or.inr ⟨_, by omega, h⟩
    · exact Or.inr ⟨_, by omega, h⟩
    · exact Or.inr ⟨_, by omega, h⟩
    · exact Or.inr ⟨_, by omega, h⟩
    · exact Or.inr ⟨_, by omega, h⟩
    all_goals exact Or.inl h
  | case5 a b c' d =>
    have ha := hk a (by simp)
    have hb := hk b (by simp)
    have hc' := hk c' (by simp)
    have hd := hk d (by simp)
    intro c hc
    simp only [encodeBase32, List.mem_cons, List.mem_singleton, List.not_mem_nil, or_false]
      at hc
    rcases hc with h | h | h | h | h | h | h | h
    · exact Or.inr ⟨_, by omega, h⟩
    · exact Or.inr ⟨_, by omega, h⟩
    · exact Or.inr ⟨_, by omega, h⟩
    · exact Or.inr ⟨_, by omega, h⟩
    · exact Or.inr ⟨_, by omega, h⟩
    · exact Or.inr ⟨_, by omega, h⟩
    · exact Or.inr ⟨_, by omega, h⟩
    · exact Or.inl h
  | case6 a b c' d e rest ih =>
    have ha := hk a (by simp)
    have hb := hk b (by simp)
    have hc' := hk c' (by simp)
    have hd := hk d (by simp)
    have he := hk e (by simp)
    intro c hc
    simp only [encodeBase32, List.mem_cons] at hc
    rcases hc with h | h | h | h | h | h | h | h | h
    · exact Or.inr ⟨_, by omega, h⟩
    · exact Or.inr ⟨_, by omega, h⟩
    · exact Or.inr ⟨_, by omega, h⟩
    · exact Or.inr ⟨_, by omega, h⟩
    · exact Or.inr ⟨_, by omega, h⟩
    · exact Or.inr ⟨_, by omega, h⟩
    · exact Or.inr ⟨_, by omega, h⟩
    · exact Or.inr ⟨_, by omega, h⟩
    · exact ih (fun x hx => hk x (by simp [hx])) c h

/-- Base32 text is left unchanged by the normalisation and by `stripNewlines`:
the decoder reads the character codes of the text. -/
theorem base32Text_bytes (upperTable : Char → Char) (cs : List Char)
    (hcs : ∀ c ∈ cs, c = '=' ∨ ∃ v, v < 32 ∧ c = base32Char v) :
    stripNewlines (((cs.filter (fun c => c != ' ')).map (toUpperRune upperTable)).flatMap
      utf8EncodeRune) = cs.map Char.toNat := by
  induction cs with
  | nil => rfl
  | cons c cs ih =>
    have hrest := ih (fun x hx => hcs x (List.mem_cons_of_mem _ hx))
    have hsplit : c :: cs = [c] ++ cs := rfl
    have hone : stripNewlines ((([c].filter (fun c => c != ' ')).map
        (toUpperRune upperTable)).flatMap utf8EncodeRune) = [c.toNat] := by
      rcases hcs c (List.mem_cons_self _ _) with h | ⟨v, hv, h⟩
      · subst h; rfl
      · subst h
        obtain ⟨h1, h2, h3⟩ := base32Char_normal upperTable v hv
        obtain ⟨-, -, h5, h6⟩ := base32Char_decode v hv
        simp [List.filter_cons, h1, h2, h3, stripNewlines, h5, h6]
    rw [hsplit]
    simp only [List.filter_append, List.map_append, List.flatMap_append, stripNewlines_append,
      hone, hrest]
    rfl

theorem or_eq_add_of_lt (i x y : Nat) (hy : y < 2 ^ i) : (2 ^ i * x) ||| y = 2 ^ i * x + y :=
  (Nat.mul_add_lt_is_or hy x).symm

/-- The five bytes packed from eight 5-bit values, in arithmetic. -/
theorem pack_bytes (d0 d1 d2 d3 d4 d5 d6 d7 : Nat) (h1 : d1 < 32) (h2 : d2 < 32)
    (h3 : d3 < 32) (h4 : d4 < 32) (h5 : d5 < 32) (h6 : d6 < 32) (h7 : d7 < 32) :
    (d0 <<< 3) ||| (d1 >>> 2) = d0 * 8 + d1 / 4 ∧
      (d1 <<< 6) ||| (d2 <<< 1) ||| (d3 >>> 4) = d1 * 64 + d2 * 2 + d3 / 16 ∧
      (d3 <<< 4) ||| (d4 >>> 1) = d3 * 16 + d4 / 2 ∧
      (d4 <<< 7) ||| (d5 <<< 2) ||| (d6 >>> 3) = d4 * 128 + d5 * 4 + d6 / 8 ∧
      (d6 <<< 5) ||| d7 = d6 * 32 + d7 := by
  simp only [Nat.shiftLeft_eq, Nat.shiftRight_eq_div_pow]
  refine ⟨?_, ?_, ?_, ?_, ?_⟩
  · have := or_eq_add_of_lt 3 d0 (d1 / 2 ^ 2) (by norm_num; omega)
    rw [Nat.mul_comm] at this
    rw [this]; norm_num
  · have e1 := or_eq_add_of_lt 6 d1 (d2 * 2 ^ 1) (by norm_num; omega)
    rw [Nat.mul_comm] at e1
    rw [e1]
    have e2 := or_eq_add_of_lt 1 (32 * d1 + d2) (d3 / 2 ^ 4) (by norm_num; omega)
    have e3 : 2 ^ 1 * (32 * d1 + d2) = d1 * 2 ^ 6 + d2 * 2 ^ 1 := by norm_num; omega
    rw [e3] at e2
    rw [e2]; norm_num
  · have := or_eq_add_of_lt 4 d3 (d4 / 2 ^ 1) (by norm_num; omega)
    rw [Nat.mul_comm] at this
    rw [this]; norm_num
  · have e1 := or_eq_add_of_lt 7 d4 (d5 * 2 ^ 2) (by norm_num; omega)
    rw [Nat.mul_comm] at e1
    rw [e1]
    have e2 := or_eq_add_of_lt 2 (32 * d4 + d5) (d6 / 2 ^ 3) (by norm_num; omega)
    have e3 : 2 ^ 2 * (32 * d4 + d5) = d4 * 2 ^ 7 + d5 * 2 ^ 2 := by norm_num; omega
    rw [e3] at e2
    rw [e2]; norm_num
  · have := or_eq_add_of_lt 5 d6 d7 (by norm_num; omega)
    rw [Nat.mul_comm] at this
    rw [this]; norm_num

/-- One step of the inner loop on a character of the alphabet. -/
theorem decodeQuantum_step (olen n c : Nat) (src dbuf : List Nat) (hc : c ≠ 61)
    (hm : decodeMap c ≠ 0xFF) :
    decodeQuantum olen (n + 1) (c :: src) dbuf =
      decodeQuantum olen n src (dbuf ++ [decodeMap c]) := by
  simp [decodeQuantum, hc, hm]

/-- The code of the character of a 5-bit value takes one step of the inner
loop and is decoded to the value. -/
theorem decodeQuantum_char (olen n v : Nat) (hv : v < 32) (src dbuf : List Nat) :
    decodeQuantum olen (n + 1) ((base32Char v).toNat :: src) dbuf =
      decodeQuantum olen n src (dbuf ++ [v]) := by
  obtain ⟨h1, h2, -, -⟩ := base32Char_decode v hv
  have := decodeQuantum_step olen n (base32Char v).toNat src dbuf h2 (by rw [h1]; omega)
  rw [this, h1]

/-- The bytes packed from a quantum of 5-bit values, for the five lengths a
quantum of Base32 text has. -/
theorem packQuantum_values (v0 v1 v2 v3 v4 v5 v6 v7 : Nat) (h1 : v1 < 32) (h2 : v2 < 32)
    (h3 : v3 < 32) (h4 : v4 < 32) (h5 : v5 < 32) (h6 : v6 < 32) (h7 : v7 < 32) :
    packQuantum [v0, v1] 2 = [(v0 * 8 + v1 / 4) % 256] ∧
      packQuantum [v0, v1, v2, v3] 4 =
        [(v0 * 8 + v1 / 4) % 256, (v1 * 64 + v2 * 2 + v3 / 16) % 256] ∧
      packQuantum [v0, v1, v2, v3, v4] 5 =
        [(v0 * 8 + v1 / 4) % 256, (v1 * 64 + v2 * 2 + v3 / 16) % 256,
          (v3 * 16 + v4 / 2) % 256] ∧
      packQuantum [v0, v1, v2, v3, v4, v5, v6] 7 =
        [(v0 * 8 + v1 / 4) % 256, (v1 * 64 + v2 * 2 + v3 / 16) % 256,
          (v3 * 16 + v4 / 2) % 256, (v4 * 128 + v5 * 4 + v6 / 8) % 256] ∧
      packQuantum [v0, v1, v2, v3, v4, v5, v6, v7] 8 =
        [(v0 * 8 + v1 / 4) % 256, (v1 * 64 + v2 * 2 + v3 / 16) % 256,
          (v3 * 16 + v4 / 2) % 256, (v4 * 128 + v5 * 4 + v6 / 8) % 256,
          (v6 * 32 + v7) % 256] := by
  obtain ⟨p0, p1, p2, p3, p4⟩ := pack_bytes v0 v1 v2 v3 v4 v5 v6 v7 h1 h2 h3 h4 h5 h6 h7
  refine ⟨?_, ?_, ?_, ?_, ?_⟩ <;>
    simp [packQuantum, p0, p1, p2, p3, p4]

/-- The decoder inverts the encoder, whatever the bound on its iterations
above the length of the text. -/
theorem decodeLoop_encodeBase32 (olen : Nat) (k : List Nat) (hk : ∀ b ∈ k, b < 256) :
    ∀ fuel, (encodeBase32 k).length ≤ fuel →
      decodeLoop olen fuel ((encodeBase32 k).map Char.toNat) = .ok k := by
  induction k using encodeBase32.induct with
  | case1 =>
    intro fuel _
    cases fuel <;> simp [encodeBase32, decodeLoop]
  | case2 a =>
    have ha := hk a (by simp)
    intro fuel hfuel
    obtain ⟨f, rfl⟩ : ∃ f, fuel = f + 1 := ⟨fuel - 1, by simp [encodeBase32] at hfuel; omega⟩
    have hp := (packQuantum_values (a / 8) (a % 8 * 4) 0 0 0 0 0 0 (by omega) (by omega)
      (by omega) (by omega) (by omega) (by omega) (by omega)).1
    simp only [encodeBase32, List.map_cons, List.map_nil, decodeLoop, List.length_cons,
      List.length_nil]
    rw [decodeQuantum_char _ _ _ (by omega), decodeQuantum_char _ _ _ (by omega)]
    simp [decodeQuantum, findBadPad, hp]
    omega
  | case3 a b =>
    have ha := hk a (by simp)
    have hb := hk b (by simp)
    intro fuel hfuel
    obtain ⟨f, rfl⟩ : ∃ f, fuel = f + 1 := ⟨fuel - 1, by simp [encodeBase32] at hfuel; omega⟩
    have hp := (packQuantum_values (a / 8) (a % 8 * 4 + b / 64) (b / 2 % 32) (b % 2 * 16) 0 0 0 0
      (by omega) (by omega) (by omega) (by omega) (by omega) (by omega) (by omega)).2.1
    simp only [encodeBase32, List.map_cons, List.map_nil, decodeLoop, List.length_cons,
      List.length_nil]
    rw [decodeQuantum_char _ _ _ (by omega), decodeQuantum_char _ _ _ (by omega),
      decodeQuantum_char _ _ _ (by omega), decodeQuantum_char _ _ _ (by omega)]
    simp [decodeQuantum, findBadPad, hp]
    omega
  | case4 a b c =>
    have ha := hk a (by simp)
    have hb := hk b (by simp)
    have hc := hk c (by simp)
    intro fuel hfuel
    obtain ⟨f, rfl⟩ : ∃ f, fuel = f + 1 := ⟨fuel - 1, by simp [encodeBase32] at hfuel; omega⟩
    have hp := (packQuantum_values (a / 8) (a % 8 * 4 + b / 64) (b / 2 % 32)
      (b % 2 * 16 + c / 16) (c % 16 * 2) 0 0 0
      (by omega) (by omega) (by omega) (by omega) (by omega) (by omega) (by omega)).2.2.1
    simp only [encodeBase32, List.map_cons, List.map_nil, decodeLoop, List.length_cons,
      List.length_nil]
    rw [decodeQuantum_char _ _ _ (by omega), decodeQuantum_char _ _ _ (by omega),
      decodeQuantum_char _ _ _ (by omega), decodeQuantum_char _ _ _ (by omega),
      decodeQuantum_char _ _ _ (by omega)]
    simp [decodeQuantum, findBadPad, hp]
    omega
  | case5 a b c d =>
    have ha := hk a (by simp)
    have hb := hk b (by simp)
    have hc := hk c (by simp)
    have hd := hk d (by simp)
    intro fuel hfuel
    obtain ⟨f, rfl⟩ : ∃ f, fuel = f + 1 := ⟨fuel - 1, by simp [encodeBase32] at hfuel; omega⟩
    have hp := (packQuantum_values (a / 8) (a % 8 * 4 + b / 64) (b / 2 % 32)
      (b % 2 * 16 + c / 16) (c % 16 * 2 + d / 128) (d / 4 % 32) (d % 4 * 8) 0
      (by omega) (by omega) (by omega) (by omega) (by omega) (by omega) (by omega)).2.2.2.1
    simp only [encodeBase32, List.map_cons, List.map_nil, decodeLoop, List.length_cons,
      List.length_nil]
    rw [decodeQuantum_char _ _ _ (by omega), decodeQuantum_char _ _ _ (by omega),
      decodeQuantum_char _ _ _ (by omega), decodeQuantum_char _ _ _ (by omega),
      decodeQuantum_char _ _ _ (by omega), decodeQuantum_char _ _ _ (by omega),
      decodeQuantum_char _ _ _ (by omega)]
    simp [decodeQuantum, findBadPad, hp]
    omega
  | case6 a b c d e rest ih =>
    have ha := hk a (by simp)
    have hb := hk b (by simp)
    have hc := hk c (by simp)
    have hd := hk d (by simp)
    have he := hk e (by simp)
    intro fuel hfuel
    obtain ⟨f, rfl⟩ : ∃ f, fuel = f + 1 := ⟨fuel - 1, by simp [encodeBase32] at hfuel; omega⟩
    have hp := (packQuantum_values (a / 8) (a % 8 * 4 + b / 64) (b / 2 % 32)
      (b % 2 * 16 + c / 16) (c % 16 * 2 + d / 128) (d / 4 % 32) (d % 4 * 8 + e / 32) (e % 32)
      (by omega) (by omega) (by omega) (by omega) (by omega) (by omega) (by omega)).2.2.2.2
    have hrest := ih (fun x hx => hk x (by simp [hx])) f
      (by simp [encodeBase32] at hfuel; omega)
    simp only [encodeBase32, List.map_cons, decodeLoop, List.length_cons]
    rw [decodeQuantum_char _ _ _ (by omega), decodeQuantum_char _ _ _ (by omega),
      decodeQuantum_char _ _ _ (by omega), decodeQuantum_char _ _ _ (by omega),
      decodeQuantum_char _ _ _ (by omega), decodeQuantum_char _ _ _ (by omega),
      decodeQuantum_char _ _ _ (by omega), decodeQuantum_char _ _ _ (by omega)]
    simp [decodeQuantum, hp, hrest]
    omega

/-- Decoding the normalised Base32 text of a byte string gives the byte string. -/
theorem DecodeString_EncodeToString (upperTable : Char → Char) (k : List Nat)
    (hk : ∀ b ∈ k, b < 256) :
    DecodeString (toUpper upperTable (removeSpaces (EncodeToString k))) = .ok k := by
  have hbytes : stripNewlines (utf8Bytes (toUpper upperTable (removeSpaces (EncodeToString k)))) =
      (encodeBase32 k).map Char.toNat := by
    unfold utf8Bytes
    rw [normalized_data]
    exact base32Text_bytes upperTable (encodeBase32 k) (encodeBase32_chars k hk)
  unfold DecodeString
  simp only [hbytes]
  exact decodeLoop_encodeBase32 _ k hk _ (by rw [List.length_map])

/-- C12: for every key byte string `k` and every time, `GenerateCode` applied to
the standard Base32 text of `k` (RFC 4648, with `=` padding) decodes the text to
`k` and returns, without error, the code `generateTOTP` computes from `k` and
the time step. -/
theorem GenerateCode_base32_round_trip (upperTable : Char → Char) (now : Int) (k : List Nat)
    (hk : ∀ b ∈ k, b < 256) :
    DecodeString (toUpper upperTable (removeSpaces (EncodeToString k))) = .ok k ∧
      ∃ code, generateTOTP k (timeStep now) = some code ∧
        GenerateCode upperTable now (EncodeToString k) = some (code, none) := by
  have hdec := DecodeString_EncodeToString upperTable k hk
  obtain ⟨b0, b1, b2, b3, -, -, -, -, hcode⟩ := generateTOTP_eq k (timeStep now)
  refine ⟨hdec, _, hcode, ?_⟩
  rw [GenerateCode_eq, hdec]
  simp only [hcode]

/-- Witness of C12: the RFC 6238 test secret, whose Base32 text is
`GEZDGNBVGY3TQOJQGEZDGNBVGY3TQOJQ`. -/
theorem GenerateCode_base32_round_trip_witness :
    EncodeToString [49, 50, 51, 52, 53, 54, 55, 56, 57, 48, 49, 50, 51, 52, 53, 54, 55, 56, 57,
        48] = "GEZDGNBVGY3TQOJQGEZDGNBVGY3TQOJQ" ∧
      DecodeString (toUpper (fun c => c) (removeSpaces (EncodeToString
        [49, 50, 51, 52, 53, 54, 55, 56, 57, 48, 49, 50, 51, 52, 53, 54, 55, 56, 57, 48]))) =
        .ok [49, 50, 51, 52, 53, 54, 55, 56, 57, 48, 49, 50, 51, 52, 53, 54, 55, 56, 57, 48] :=
  ⟨by decide,
    (GenerateCode_base32_round_trip (fun c => c) 59
      [49, 50, 51, 52, 53, 54, 55, 56, 57, 48, 49, 50, 51, 52, 53, 54, 55, 56, 57, 48]
      (by decide)).1⟩

/-! ## Failure on an invalid secret, and valid Base32 text -/

theorem encodeBase32_length (k : List Nat) : (encodeBase32 k).length % 8 = 0 := by
  induction k using encodeBase32.induct with
  | case1 => rfl
  | case2 a => simp [encodeBase32]
  | case3 a b => simp [encodeBase32]
  | case4 a b c => simp [encodeBase32]
  | case5 a b c d => simp [encodeBase32]
  | case6 a b c d e rest ih =>
    simp only [encodeBase32, List.length_cons]
    omega

/-- Base32 text is its own normalised form. -/
theorem base32Text_normalized (upperTable : Char → Char) (cs : List Char)
    (hcs : ∀ c ∈ cs, c = '=' ∨ ∃ v, v < 32 ∧ c = base32Char v) :
    (cs.filter (fun c => c != ' ')).map (toUpperRune upperTable) = cs := by
  induction cs with
  | nil => rfl
  | cons c cs ih =>
    have hrest := ih (fun x hx => hcs x (List.mem_cons_of_mem _ hx))
    rcases hcs c (List.mem_cons_self _ _) with h | ⟨v, hv, h⟩
    · subst h
      rw [List.filter_cons, if_pos (by decide), List.map_cons, hrest]
      rfl
    · subst h
      obtain ⟨h1, h2, -⟩ := base32Char_normal upperTable v hv
      rw [List.filter_cons, if_pos h1, List.map_cons, hrest, h2]

theorem encodeToString_normalized (upperTable : Char → Char) (k : List Nat)
    (hk : ∀ b ∈ k, b < 256) :
    toUpper upperTable (removeSpaces (EncodeToString k)) = EncodeToString k :=
  String.ext (by
    rw [normalized_data]
    exact base32Text_normalized upperTable (encodeBase32 k) (encodeBase32_chars k hk))

/-- A secret whose normalised form is the Base32 text of `k` is accepted, and
the code is computed from `k`. -/
theorem GenerateCode_of_valid (upperTable : Char → Char) (now : Int) (secret : String)
    (k : List Nat) (hk : ∀ b ∈ k, b < 256)
    (hnorm : toUpper upperTable (removeSpaces secret) = EncodeToString k) :
    ∃ code, generateTOTP k (timeStep now) = some code ∧
      GenerateCode upperTable now secret = some (code, none) := by
  have hdec := DecodeString_EncodeToString upperTable k hk
  rw [encodeToString_normalized upperTable k hk] at hdec
  obtain ⟨b0, b1, b2, b3, -, -, -, -, hcode⟩ := generateTOTP_eq k (timeStep now)
  refine ⟨_, hcode, ?_⟩
  rw [GenerateCode_eq, hnorm, hdec]
  simp only [hcode]

theorem not_validBase32_of_length (s : String) (h : s.data.length % 8 ≠ 0) :
    ¬ ValidBase32 s := by
  rintro ⟨k, -, hs⟩
  apply h
  rw [hs]
  exact encodeBase32_length k

theorem base32Char_ne_pad (v : Nat) (hv : v < 32) : base32Char v ≠ '=' := by
  interval_cases v <;> decide

/-- The text `MZ======` is not the encoding of a byte string: the second
character of the encoding of one byte carries only three bits of the byte. -/
theorem not_validBase32_MZ : ¬ ValidBase32 "MZ======" := by
  rintro ⟨k, hk, hs⟩
  have hd : ['M', 'Z', '=', '=', '=', '=', '=', '='] = encodeBase32 k :=
    congrArg String.data hs
  match k, hk, hd with
  | [], _, hd => simp [encodeBase32] at hd
  | [a], hk, hd =>
    have ha := hk a (by simp)
    simp only [encodeBase32, List.cons.injEq, and_true] at hd
    have h2 := congrArg Char.toNat hd.2
    rw [base32Char_toNat _ (by omega)] at h2
    have hz : ('Z' : Char).toNat = 90 := rfl
    rw [hz] at h2
    split at h2 <;> omega
  | [a, b], hk, hd =>
    have hb := hk b (by simp)
    simp only [encodeBase32, List.cons.injEq, and_true] at hd
    exact base32Char_ne_pad _ (by omega) hd.2.2.1.symm
  | [a, b, c], hk, hd =>
    have hb := hk b (by simp)
    simp only [encodeBase32, List.cons.injEq, and_true] at hd
    exact base32Char_ne_pad _ (by omega) hd.2.2.1.symm
  | [a, b, c, d], hk, hd =>
    have hb := hk b (by simp)
    simp only [encodeBase32, List.cons.injEq, and_true] at hd
    exact base32Char_ne_pad _ (by omega) hd.2.2.1.symm
  | a :: b :: c :: d :: e :: rest, hk, hd =>
    have hb := hk b (by simp)
    simp only [encodeBase32, List.cons.injEq] at hd
    exact base32Char_ne_pad _ (by omega) hd.2.2.1.symm

set_option maxRecDepth 100000 in
/-- C4 (counterexample): the texts `MY======A` (a byte after the padding) and
`MZ======` (unused bits that are not zero) are in normalised form and are not
valid standard Base32, yet `GenerateCode` accepts them and returns the code of
the one-byte key `f`. -/
theorem GenerateCode_accepts_invalid_base32 :
    toUpper (fun c => c) (removeSpaces "MY======A") = "MY======A" ∧
      ¬ ValidBase32 "MY======A" ∧
      GenerateCode (fun c => c) 59 "MY======A" = some ("300412", none) ∧
      toUpper (fun c => c) (removeSpaces "MZ======") = "MZ======" ∧
      ¬ ValidBase32 "MZ======" ∧
      GenerateCode (fun c => c) 59 "MZ======" = some ("300412", none) ∧
      GenerateCode (fun c => c) 59 (EncodeToString [102]) = some ("300412", none) :=
  ⟨rfl, not_validBase32_of_length _ (by decide), by decide, rfl, not_validBase32_MZ, by decide,
    by decide⟩

/-- C4 (as amended): `GenerateCode` accepts every secret whose normalised form is
valid standard Base32, so it returns the invalid-secret-format error only for
a normalised secret that is not valid standard Base32; it returns the error
exactly when the decoder `base32.StdEncoding.DecodeString` rejects the
normalised secret, the error then carries the decoder's error and the code is
the empty string; and `not-base32!` fails at every time. -/
theorem GenerateCode_invalid_secret (upperTable : Char → Char) (now : Int) (secret : String) :
    (ValidBase32 (toUpper upperTable (removeSpaces secret)) →
        ∃ code, GenerateCode upperTable now secret = some (code, none)) ∧
      ((∃ code err, GenerateCode upperTable now secret = some (code, some err)) →
        ¬ ValidBase32 (toUpper upperTable (removeSpaces secret))) ∧
      ((∃ code err, GenerateCode upperTable now secret = some (code, some err)) ↔
        ¬ ∃ bytes, DecodeString (toUpper upperTable (removeSpaces secret)) = .ok bytes) ∧
      (∀ code err, GenerateCode upperTable now secret = some (code, some err) →
        code = "" ∧ ∃ cause, err = .invalidSecretFormat cause ∧
          DecodeString (toUpper upperTable (removeSpaces secret)) = .corrupt cause) ∧
      GenerateCode upperTable now "not-base32!" =
        some ("", some (.invalidSecretFormat ⟨3⟩)) := by
  have hvalid : ValidBase32 (toUpper upperTable (removeSpaces secret)) →
      ∃ code, GenerateCode upperTable now secret = some (code, none) := by
    rintro ⟨k, hk, hs⟩
    obtain ⟨code, -, hg⟩ := GenerateCode_of_valid upperTable now secret k hk hs
    exact ⟨code, hg⟩
  refine ⟨hvalid, ?_, ?_, ?_, ?_⟩
  · rintro ⟨c, e, he⟩ hv
    obtain ⟨code, hg⟩ := hvalid hv
    rw [hg] at he
    simp at he
  · rcases GenerateCode_cases upperTable now secret with ⟨err, hd, hg⟩ | ⟨bytes, code, hd, -, hg⟩
    · constructor
      · rintro - ⟨bytes, hb⟩
        rw [hd] at hb
        exact DecodeResult.noConfusion hb
      · intro _
        exact ⟨_, _, hg⟩
    · constructor
      · rintro ⟨c, e, he⟩
        rw [hg] at he
        simp at he
      · intro hno
        exact absurd ⟨bytes, hd⟩ hno
  · intro code err hce
    rcases GenerateCode_cases upperTable now secret with ⟨cause, hd, hg⟩ | ⟨bytes, c, hd, -, hg⟩
    · rw [hg] at hce
      simp only [Option.some.injEq, Prod.mk.injEq] at hce
      exact ⟨hce.1.symm, cause, hce.2.symm, hd⟩
    · rw [hg] at hce
      simp at hce
  · rewrite [GenerateCode_eq, notBase32_normalized, notBase32_decoded]
    exact Eq.refl _

end Totp
